import Mathlib

/-!
Shallow embedding of the graph library (src/graph.py) and of the challenge
functions built on it (src/challenges.py).

Modelling conventions:
* Vertex identifiers are natural numbers (the source allows any hashable
  value; only equality of identifiers is ever used).
* A graph is its vertex dictionary, an insertion-ordered association list
  from identifier to the list of neighbor identifier keys, together with
  the directedness flag.  Python dicts are insertion ordered with unique
  keys; assignment to an existing key replaces the value in place.
* In the source, vertices store references to neighbor vertex objects.
  At the identifier level this is the list of neighbor keys.  Traversals
  that follow object references always succeed; traversals that re-look
  a vertex up through the graph raise AttributeError when the id is
  absent (get_vertex returns None and the call on None fails).
* Python exceptions are modelled by the error side of Except.  Loops are
  defined by fuel recursion; the designated fuel values are proven (or
  checked by evaluation) sufficient, so the outOfFuel marker never
  stands for real behavior.
* deque.append followed by deque.pop (both at the right end) is a stack;
  we realize the same LIFO discipline by pushing and popping at the head
  of a list.  deque.append with deque.popleft is a FIFO queue; we pop at
  the head and push at the tail.
* The random.choice of a start vertex in is_bipartite, and the arbitrary
  element taken by set.pop in find_connected_components, are modelled by
  an explicit parameter (any selectable value), respectively by taking
  the vertices in insertion order.
-/

/-- The kinds of Python exceptions (and the fuel marker) relevant here. -/
inductive PyErr where
  | keyError
  | attrError
  | indexError
  | valueError
  | outOfFuel
deriving DecidableEq, Repr

/-- Identifier of a vertex. -/
abbrev VId := Nat

instance {ε α : Type} [DecidableEq ε] [DecidableEq α] : DecidableEq (Except ε α)
  | .error e1, .error e2 =>
    if h : e1 = e2 then isTrue (by rw [h]) else isFalse (by intro hh; cases hh; exact h rfl)
  | .error _, .ok _ => isFalse (by intro hh; cases hh)
  | .ok _, .error _ => isFalse (by intro hh; cases hh)
  | .ok a1, .ok a2 =>
    if h : a1 = a2 then isTrue (by rw [h]) else isFalse (by intro hh; cases hh; exact h rfl)

/-- Association-list lookup, mirroring a Python dict keyed by ids. -/
def assocFind {α : Type} : List (VId × α) → VId → Option α
  | [], _ => none
  | (k, v) :: rest, i => if k = i then some v else assocFind rest i

/-- A graph: the vertex dictionary (id to neighbor-key list, in insertion
order) and the directedness flag fixed at construction. -/
structure Graph where
  vertexDict : List (VId × List VId)
  isDirected : Bool
deriving DecidableEq, Repr

/-- The vertex ids, in insertion order (keys of the vertex dictionary). -/
def Graph.ids (g : Graph) : List VId := g.vertexDict.map Prod.fst

/-- get_vertex: the neighbor keys of the vertex, if present. -/
def Graph.getVertex (g : Graph) (i : VId) : Option (List VId) :=
  assocFind g.vertexDict i

/-- contains_id: membership test in the vertex dictionary. -/
def Graph.containsId (g : Graph) (i : VId) : Bool :=
  (g.getVertex i).isSome

/-- The neighbor keys of a vertex object.  A vertex object always has its
neighbor list; the default only fires for ids that name no vertex. -/
def Graph.neighborsD (g : Graph) (i : VId) : List VId :=
  (g.getVertex i).getD []

/-- add_vertex: assign a fresh empty vertex to the key, replacing any
existing vertex (and thereby dropping its neighbor links). -/
def Graph.addVertex (g : Graph) (i : VId) : Graph :=
  if g.containsId i then
    { g with vertexDict := g.vertexDict.map (fun p => if p.1 = i then (i, ([] : List VId)) else p) }
  else
    { g with vertexDict := g.vertexDict ++ [(i, [])] }

/-- Assignment to a neighbor dictionary: storing an already present key
leaves the key list unchanged, a new key is appended. -/
def addNbrKey (ns : List VId) (v : VId) : List VId :=
  if v ∈ ns then ns else ns ++ [v]

/-- Vertex.add_neighbor on the vertex with key u: store v in the neighbor
dictionary (a no-op on the key set when v is already a neighbor key). -/
def Graph.addNeighbor (g : Graph) (u v : VId) : Graph :=
  { g with vertexDict :=
      g.vertexDict.map (fun p => if p.1 = u then (p.1, addNbrKey p.2 v) else p) }

/-- The guarded add_vertex call at the top of add_edge: create the
vertex when get_vertex finds none. -/
def Graph.ensureVertex (g : Graph) (i : VId) : Graph :=
  if (g.getVertex i).isNone then g.addVertex i else g

/-- The linking half of add_edge, after both endpoints exist: link u to
v and, when the graph is undirected, also link v to u. -/
def Graph.linkEdge (g : Graph) (u v : VId) : Graph :=
  if g.isDirected then g.addNeighbor u v else (g.addNeighbor u v).addNeighbor v u

/-- add_edge: ensure both endpoints exist (creating absent ones), link
u to v, and for an undirected graph also link v to u. -/
def Graph.addEdge (g : Graph) (u v : VId) : Graph :=
  ((g.ensureVertex u).ensureVertex v).linkEdge u v

/-- Edge presence at the identifier level: v is a neighbor key of u. -/
def Graph.hasEdge (g : Graph) (u v : VId) : Bool :=
  decide (v ∈ g.neighborsD u)

/-- Well-formedness facts that hold of every graph the Python class can
reach: dict keys are unique, each neighbor dictionary has unique keys,
and every neighbor key names a vertex of the graph. -/
def Graph.WF (g : Graph) : Prop :=
  g.ids.Nodup ∧ ∀ p ∈ g.vertexDict, p.2.Nodup ∧ ∀ n ∈ p.2, n ∈ g.ids

instance (g : Graph) : Decidable g.WF := by
  unfold Graph.WF; infer_instance

/-- One-step adjacency as a relation. -/
def Graph.Adj (g : Graph) (u v : VId) : Prop := g.hasEdge u v = true

/-- Reachability along directed edges (reflexive transitive closure). -/
def Graph.Reach (g : Graph) (u v : VId) : Prop :=
  Relation.ReflTransGen g.Adj u v

/-- The symmetry invariant of undirected graphs: every present edge is
present in the reverse direction as well. -/
def Graph.Sym (g : Graph) : Prop :=
  ∀ u v, g.hasEdge u v = true → g.hasEdge v u = true

/-- Decidable symmetry check over the finite vertex dictionary. -/
def Graph.symB (g : Graph) : Bool :=
  g.vertexDict.all (fun p => p.2.all (fun v => g.hasEdge v p.1))

/-- Consecutive elements of the list are all edges of the graph. -/
def Graph.chainB (g : Graph) : List VId → Bool
  | [] => true
  | [_] => true
  | a :: b :: rest => g.hasEdge a b && g.chainB (b :: rest)

/-- p is a nonempty path from s to t along edges of g. -/
def Graph.pathOkB (g : Graph) (s t : VId) (p : List VId) : Bool :=
  !p.isEmpty && (p.head? == some s) && (p.getLast? == some t) && g.chainB p

/-- ord lists every vertex id exactly once and every edge of g goes from
an earlier to a later position of ord (so g is a DAG with witness ord). -/
def Graph.topoOrderOk (g : Graph) (ord : List VId) : Bool :=
  ord.Nodup
  && g.ids.all (fun i => i ∈ ord)
  && ord.all (fun i => i ∈ g.ids)
  && g.vertexDict.all (fun p => p.2.all (fun v => ord.indexOf p.1 < ord.indexOf v))

/-- c properly colors every edge recorded in the vertex dictionary. -/
def Graph.properColoringB (g : Graph) (c : VId → Bool) : Bool :=
  g.vertexDict.all (fun p => p.2.all (fun v => c p.1 != c v))

/-- The component of s (all vertices reachable from s) admits a proper
two-coloring. -/
def Graph.TwoColorable (g : Graph) (s : VId) : Prop :=
  ∃ c : VId → Bool, ∀ u v, g.Reach s u → g.hasEdge u v = true → c u ≠ c v

/-- find_shortest_path: scanning the neighbors of the current vertex,
recording a path for (and enqueueing) each not-yet-seen neighbor. -/
def fspScan (curPath : List VId) :
    List VId → List (VId × List VId) → List VId → List (VId × List VId) × List VId
  | [], paths, queue => (paths, queue)
  | n :: ns, paths, queue =>
    if (assocFind paths n).isSome then
      fspScan curPath ns paths queue
    else
      fspScan curPath ns (paths ++ [(n, curPath ++ [n])]) (n :: queue)

/-- find_shortest_path: the main loop.  The source pops from the right
end of the deque it also appends to, a LIFO discipline (pushes and pops
at the head here).  The path of the current vertex is looked up in the
seen-paths dictionary (KeyError if absent, which never happens). -/
def fspLoop (g : Graph) (t : VId) :
    Nat → List (VId × List VId) → List VId → Except PyErr (Option (List VId))
  | 0, _, _ => .error .outOfFuel
  | fuel + 1, paths, queue =>
    match queue with
    | [] => .ok (assocFind paths t)
    | cur :: rest =>
      if cur = t then .ok (assocFind paths t)
      else
        match assocFind paths cur with
        | none => .error .keyError
        | some curPath =>
          let st := fspScan curPath (g.neighborsD cur) paths rest
          fspLoop g t fuel st.1 st.2

/-- find_shortest_path(start, target): KeyError when either endpoint is
absent; otherwise the traversal, returning the recorded path of target
or None when target was never recorded. -/
def Graph.findShortestPath (g : Graph) (s t : VId) : Except PyErr (Option (List VId)) :=
  if !g.containsId s || !g.containsId t then .error .keyError
  else fspLoop g t (g.vertexDict.length + 1) [(s, [s])] [s]

/-- find_vertices_n_away: neighbor scan, enqueueing (LIFO) each unvisited
neighbor with distance one more than the current one. -/
def fnvaScan (dist : Nat) :
    List VId → List VId → List (VId × Nat) → List VId × List (VId × Nat)
  | [], visited, queue => (visited, queue)
  | n :: ns, visited, queue =>
    if n ∈ visited then fnvaScan dist ns visited queue
    else fnvaScan dist ns (visited ++ [n]) ((n, dist + 1) :: queue)

/-- find_vertices_n_away: the main loop.  The current id is re-looked up
through the graph; when absent, get_vertex yields None and the neighbor
call on it raises AttributeError. -/
def fnvaLoop (g : Graph) (d : Nat) :
    Nat → List VId → List VId → List (VId × Nat) → Except PyErr (List VId)
  | 0, _, _, _ => .error .outOfFuel
  | fuel + 1, visited, out, queue =>
    match queue with
    | [] => .ok out
    | (cur, dist) :: rest =>
      let out2 := if dist = d then out ++ [cur] else out
      match g.getVertex cur with
      | none => .error .attrError
      | some ns =>
        let st := fnvaScan dist ns visited rest
        fnvaLoop g d fuel st.1 out2 st.2

/-- find_vertices_n_away(start, target_distance): no guard on the start
id; it is visited at distance 0 immediately. -/
def Graph.findVerticesNAway (g : Graph) (s : VId) (d : Nat) : Except PyErr (List VId) :=
  fnvaLoop g d (g.vertexDict.length + 1) [s] [] [(s, 0)]

/-- get_connected: neighbor scan of the FIFO traversal; the visitor
callback only mutates caller state and is not modelled. -/
def gcScan : List VId → List VId → List VId → List VId × List VId
  | [], visited, queue => (visited, queue)
  | n :: ns, visited, queue =>
    if n ∈ visited then gcScan ns visited queue
    else gcScan ns (visited ++ [n]) (queue ++ [n])

/-- get_connected: the main loop (FIFO: popleft, append at the tail).
The popped id is re-looked up through the graph; absent ids make the
neighbor call fail with AttributeError. -/
def gcLoop (g : Graph) :
    Nat → List VId → List VId → Except PyErr (List VId)
  | 0, _, _ => .error .outOfFuel
  | fuel + 1, visited, queue =>
    match queue with
    | [] => .ok visited
    | cur :: rest =>
      match g.getVertex cur with
      | none => .error .attrError
      | some ns =>
        let st := gcScan ns visited rest
        gcLoop g fuel st.1 st.2

/-- get_connected(start, visit): BFS from start returning the visited
set (as the list of ids in discovery order). -/
def Graph.getConnected (g : Graph) (s : VId) : Except PyErr (List VId) :=
  gcLoop g (g.vertexDict.length + 1) [s] [s]

/-- is_bipartite: scan of the current vertex's neighbors.  Unseen
neighbors are colored with the toggled color and enqueued; for seen ones
the colors of the current vertex and the neighbor are compared, equality
meaning an immediate False (the none result). -/
def bipNbrs (cc : Nat) (cur : VId) :
    List VId → List (VId × Nat) → List VId →
    Except PyErr (Option (List (VId × Nat) × List VId))
  | [], visited, queue => .ok (some (visited, queue))
  | n :: ns, visited, queue =>
    match assocFind visited n with
    | none => bipNbrs cc cur ns (visited ++ [(n, cc)]) (queue ++ [n])
    | some cn =>
      match assocFind visited cur with
      | none => .error .keyError
      | some ccur =>
        if ccur = cn then .ok none else bipNbrs cc cur ns visited queue

/-- is_bipartite: the main loop (FIFO).  The color toggles once per
iteration, before the pop. -/
def bipLoop (g : Graph) :
    Nat → Nat → List (VId × Nat) → List VId → Except PyErr Bool
  | 0, _, _, _ => .error .outOfFuel
  | fuel + 1, cc, visited, queue =>
    match queue with
    | [] => .ok true
    | cur :: rest =>
      let cc2 := cc ^^^ 1
      match g.getVertex cur with
      | none => .error .attrError
      | some ns =>
        match bipNbrs cc2 cur ns visited rest with
        | .error e => .error e
        | .ok none => .ok false
        | .ok (some st) => bipLoop g fuel cc2 st.1 st.2

/-- is_bipartite from a given start vertex (one of the values the random
choice may select), colored 0. -/
def Graph.isBipartiteFrom (g : Graph) (s : VId) : Except PyErr Bool :=
  bipLoop g (g.vertexDict.length + 1) 0 [(s, 0)] [s]

/-- is_bipartite(): random.choice on the key list raises IndexError on
an empty graph; otherwise the check runs from the chosen vertex (here
the first selectable one; claims about the random choice quantify over
isBipartiteFrom instead). -/
def Graph.isBipartite (g : Graph) : Except PyErr Bool :=
  match g.ids with
  | [] => .error .indexError
  | s :: _ => g.isBipartiteFrom s

/-- find_connected_components: scan of the current vertex's neighbors.
A neighbor still in the remaining-vertex set is removed from it; a
neighbor not yet in the component is enqueued (LIFO) and appended. -/
def fccScan : List VId → List VId → List VId → List VId →
    List VId × List VId × List VId
  | [], verts, queue, comp => (verts, queue, comp)
  | n :: ns, verts, queue, comp =>
    let verts2 := if n ∈ verts then verts.erase n else verts
    if n ∈ comp then fccScan ns verts2 queue comp
    else fccScan ns verts2 (n :: queue) (comp ++ [n])

/-- find_connected_components: inner traversal growing one component. -/
def fccInner (g : Graph) :
    Nat → List VId → List VId → List VId → Except PyErr (List VId × List VId)
  | 0, _, _, _ => .error .outOfFuel
  | fuel + 1, verts, queue, comp =>
    match queue with
    | [] => .ok (verts, comp)
    | cur :: rest =>
      match g.getVertex cur with
      | none => .error .attrError
      | some ns =>
        let st := fccScan ns verts rest comp
        fccInner g fuel st.1 st.2.1 st.2.2

/-- find_connected_components: outer loop over the remaining-vertex set;
set.pop takes an arbitrary element, modelled by taking the head of the
insertion-ordered id list. -/
def fccOuter (g : Graph) :
    Nat → List VId → List (List VId) → Except PyErr (List (List VId))
  | 0, _, _ => .error .outOfFuel
  | fuel + 1, verts, acc =>
    match verts with
    | [] => .ok acc
    | r :: verts' =>
      match fccInner g (g.vertexDict.length + 2) verts' [r] [r] with
      | .error e => .error e
      | .ok st => fccOuter g fuel st.1 (acc ++ [st.2])

/-- find_connected_components(). -/
def Graph.findConnectedComponents (g : Graph) : Except PyErr (List (List VId)) :=
  fccOuter g (g.vertexDict.length + 1) g.ids []

/-- contains_cycle: the neighbor loop of dfs_cycle.  A neighbor already
in the visited list pushes True and returns early (the Python return
with no value, i.e. None); otherwise False is pushed and the recursion
descends, ignoring the returned value.  After the loop the last element
of the recursion stack is returned (IndexError when it is empty). -/
def dfsNbrs
    (rec : VId → List VId → List Bool →
      Except PyErr (Option Bool × List VId × List Bool)) :
    List VId → List VId → List Bool →
    Except PyErr (Option Bool × List VId × List Bool)
  | [], vis, rs =>
    match rs.getLast? with
    | none => .error .indexError
    | some b => .ok (some b, vis, rs)
  | n :: ns, vis, rs =>
    if n ∈ vis then .ok (none, vis, rs ++ [true])
    else
      match rec n vis (rs ++ [false]) with
      | .error e => .error e
      | .ok st => dfsNbrs rec ns st.2.1 st.2.2

/-- contains_cycle: dfs_cycle appends the current id to the visited list
and walks the neighbors. -/
def dfsCycle (g : Graph) :
    Nat → VId → List VId → List Bool →
    Except PyErr (Option Bool × List VId × List Bool)
  | 0, _, _, _ => .error .outOfFuel
  | fuel + 1, v, vis, rs =>
    match g.getVertex v with
    | none => .error .attrError
    | some ns => dfsNbrs (fun w vis2 rs2 => dfsCycle g fuel w vis2 rs2) ns (vis ++ [v]) rs

/-- contains_cycle(): IndexError on an empty graph (the first key is
taken); the start id is pre-seeded into the visited list.  The Python
function can return True, False, or None (the early-return value). -/
def Graph.containsCycle (g : Graph) : Except PyErr (Option Bool) :=
  match g.ids with
  | [] => .error .indexError
  | s :: _ =>
    match dfsCycle g (g.vertexDict.length + 2) s [s] [] with
    | .error e => .error e
    | .ok st => .ok st.1

/-- Python truthiness of the contains_cycle result (None is falsy). -/
def truthy (r : Option Bool) : Bool := r.getD false

/-- topological_sort: the neighbor loop of the post-order DFS. -/
def topoNbrs
    (rec : VId → List VId → List VId → Except PyErr (List VId × List VId)) :
    List VId → List VId → List VId → Except PyErr (List VId × List VId)
  | [], vis, st => .ok (vis, st)
  | n :: ns, vis, st =>
    if n ∈ vis then topoNbrs rec ns vis st
    else
      match rec n vis st with
      | .error e => .error e
      | .ok st2 => topoNbrs rec ns st2.1 st2.2

/-- topological_sort: dfs_topological_sort marks the vertex visited,
recurses into unvisited neighbors, then appends the vertex (post-order)
to the stack. -/
def dfsTopo (g : Graph) :
    Nat → VId → List VId → List VId → Except PyErr (List VId × List VId)
  | 0, _, _, _ => .error .outOfFuel
  | fuel + 1, v, vis, st =>
    match g.getVertex v with
    | none => .error .attrError
    | some ns =>
      match topoNbrs (fun w vis2 st2 => dfsTopo g fuel w vis2 st2) ns (vis ++ [v]) st with
      | .error e => .error e
      | .ok st2 => .ok (st2.1, st2.2 ++ [v])

/-- topological_sort: every vertex (in insertion order) not yet visited
becomes a DFS root. -/
def topoRoots (g : Graph) :
    List VId → List VId → List VId → Except PyErr (List VId × List VId)
  | [], vis, st => .ok (vis, st)
  | r :: roots, vis, st =>
    if r ∈ vis then topoRoots g roots vis st
    else
      match dfsTopo g (g.vertexDict.length + 2) r vis st with
      | .error e => .error e
      | .ok st2 => topoRoots g roots st2.1 st2.2

/-- topological_sort(): the cycle check runs first; exceptions from it
propagate, a truthy result raises ValueError (graph not a DAG), and
otherwise the reversed post-order finish stack is returned. -/
def Graph.topologicalSort (g : Graph) : Except PyErr (List VId) :=
  match g.containsCycle with
  | .error e => .error e
  | .ok r =>
    if truthy r then .error .valueError
    else
      match topoRoots g g.ids [] [] with
      | .error e => .error e
      | .ok st => .ok st.2.reverse

/-- courseOrder(numCourses, prerequisites) from src/challenges.py: build
a directed graph with an edge prerequisite to course for each pair, then
return get_connected from id 0.  numCourses is unused by the source. -/
def courseOrder (_numCourses : Nat) (prereqs : List (VId × VId)) : Except PyErr (List VId) :=
  let g := prereqs.foldl
    (fun g req =>
      let g := if !g.containsId req.1 then g.addVertex req.1 else g
      let g := if !g.containsId req.2 then g.addVertex req.2 else g
      g.addEdge req.2 req.1)
    (Graph.mk [] true)
  g.getConnected 0

/-- A single mutation of the graph-construction interface. -/
inductive Op where
  | addV (i : VId)
  | addE (u v : VId)
deriving DecidableEq, Repr

/-- Apply one mutation. -/
def applyOp (g : Graph) : Op → Graph
  | .addV i => g.addVertex i
  | .addE u v => g.addEdge u v

/-- Apply a sequence of mutations in order. -/
def applyOps (g : Graph) (ops : List Op) : Graph :=
  ops.foldl applyOp g

/-- The sequence never re-adds an existing id through add_vertex (the
caller responsibility the data-model invariants flag). -/
def safeOps : Graph → List Op → Prop
  | _, [] => True
  | g, (Op.addV i) :: rest => g.containsId i = false ∧ safeOps (applyOp g (.addV i)) rest
  | g, (Op.addE u v) :: rest => safeOps (applyOp g (.addE u v)) rest

instance : ∀ (g : Graph) (ops : List Op), Decidable (safeOps g ops)
  | _, [] => by unfold safeOps; infer_instance
  | g, (Op.addV i) :: rest =>
    have : Decidable (safeOps (applyOp g (.addV i)) rest) := instDecidableSafeOps _ rest
    by unfold safeOps; infer_instance
  | g, (Op.addE u v) :: rest =>
    have : Decidable (safeOps (applyOp g (.addE u v)) rest) := instDecidableSafeOps _ rest
    by unfold safeOps; infer_instance

/-- The empty graph with the given directedness. -/
def Graph.empty (dir : Bool) : Graph := ⟨[], dir⟩

/-- Every edge target is a vertex of the graph (edges never dangle). -/
def Graph.Closed (g : Graph) : Prop :=
  ∀ a b, g.hasEdge a b = true → g.containsId b = true

/-- Build a directed graph by a sequence of add_edge calls. -/
def buildDirected (es : List (VId × VId)) : Graph :=
  es.foldl (fun g p => g.addEdge p.1 p.2) (Graph.empty true)

/-- Build an undirected graph by a sequence of add_edge calls. -/
def buildUndirected (es : List (VId × VId)) : Graph :=
  es.foldl (fun g p => g.addEdge p.1 p.2) (Graph.empty false)

/-- Directed graph on which the LIFO frontier of find_shortest_path
discovers the target along a longer route: edges 0-1, 0-2, 1-3, 2-4,
4-3; the shortest path from 0 to 3 is 0, 1, 3. -/
def fspCexGraph : Graph := buildDirected [(0, 1), (0, 2), (1, 3), (2, 4), (4, 3)]

/-- The diamond DAG 0-1, 0-2, 1-3, 2-3: acyclic, yet the one-branch
cycle check reports a cycle (the cross edge 2-3 hits the visited list). -/
def diamondDAG : Graph := buildDirected [(0, 1), (0, 2), (1, 3), (2, 3)]

/-- Directed graph (vertex 0 inserted first, then the edge 1-0) on which
find_connected_components emits vertex 0 into two components. -/
def dupCompGraph : Graph := ((Graph.empty true).addVertex 0).addEdge 1 0

/-- Undirected tree 0-1, 0-2, 1-3, 3-4: bipartite, yet the toggled
per-pop coloring of is_bipartite reports a monochromatic edge at 3-4. -/
def bipTreeGraph : Graph := buildUndirected [(0, 1), (0, 2), (1, 3), (3, 4)]

/-- Undirected graph built by add_edge(0,1) followed by add_vertex(0):
re-adding id 0 drops its neighbor links, breaking edge symmetry. -/
def symCexGraph : Graph := applyOps (Graph.empty false) [Op.addE 0 1, Op.addV 0]


/-! ### Lemmas about lookup and the construction operations -/

theorem assocFind_isSome_iff {α : Type} (l : List (VId × α)) (i : VId) :
    (assocFind l i).isSome = true ↔ i ∈ l.map Prod.fst := by
  induction l with
  | nil => simp [assocFind]
  | cons p rest ih =>
    obtain ⟨k, v⟩ := p
    by_cases h : k = i
    · subst h; simp [assocFind]
    · simp [assocFind, h, ih, Ne.symm h]

theorem assocFind_eq_none_iff {α : Type} (l : List (VId × α)) (i : VId) :
    assocFind l i = none ↔ i ∉ l.map Prod.fst := by
  rw [← assocFind_isSome_iff]
  cases assocFind l i <;> simp

theorem assocFind_append {α : Type} (l1 l2 : List (VId × α)) (i : VId) :
    assocFind (l1 ++ l2) i =
      match assocFind l1 i with
      | some v => some v
      | none => assocFind l2 i := by
  induction l1 with
  | nil => simp [assocFind]
  | cons p rest ih =>
    obtain ⟨k, v⟩ := p
    by_cases h : k = i <;> simp [assocFind, h, ih]

theorem assocFind_map_replace {α : Type} (i : VId) (x : α) :
    ∀ (l : List (VId × α)) (j : VId),
    assocFind (l.map (fun p => if p.1 = i then (i, x) else p)) j =
      if j = i then (assocFind l i).map (fun _ => x) else assocFind l j := by
  intro l
  induction l with
  | nil =>
    intro j
    by_cases hj : j = i <;> simp [assocFind, hj]
  | cons p rest ih =>
    intro j
    obtain ⟨k, v⟩ := p
    simp only [List.map_cons]
    by_cases hk : k = i
    · subst hk
      rw [if_pos rfl]
      by_cases hj : j = k
      · subst hj
        simp [assocFind]
      · rw [if_neg hj]
        simp only [assocFind, if_neg (Ne.symm hj)]
        rw [ih j, if_neg hj]
    · rw [if_neg hk]
      by_cases hj : k = j
      · subst hj
        rw [if_neg (fun h => hk h)]
        simp [assocFind]
      · simp only [assocFind, if_neg hj]
        rw [ih j]
        by_cases hji : j = i
        · rw [if_pos hji, if_pos hji]
          subst hji
          simp only [assocFind, if_neg hk]
        · rw [if_neg hji, if_neg hji]

theorem assocFind_map_adjust {α : Type} (u : VId) (f : α → α) :
    ∀ (l : List (VId × α)) (j : VId),
    assocFind (l.map (fun p => if p.1 = u then (p.1, f p.2) else p)) j =
      (assocFind l j).map (fun x => if j = u then f x else x) := by
  intro l
  induction l with
  | nil => intro j; simp [assocFind]
  | cons p rest ih =>
    intro j
    obtain ⟨k, v⟩ := p
    simp only [List.map_cons]
    by_cases hk : k = u
    · subst hk
      rw [if_pos rfl]
      by_cases hj : k = j
      · subst hj
        simp [assocFind]
      · simp only [assocFind, if_neg hj]
        rw [ih j]
    · rw [if_neg hk]
      by_cases hj : k = j
      · subst hj
        simp [assocFind, hk]
      · simp only [assocFind, if_neg hj]
        rw [ih j]

theorem containsId_iff_mem_ids (g : Graph) (i : VId) :
    g.containsId i = true ↔ i ∈ g.ids := by
  unfold Graph.containsId Graph.getVertex Graph.ids
  exact assocFind_isSome_iff _ _

theorem getVertex_eq_none_of_not_contains {g : Graph} {i : VId}
    (h : g.containsId i = false) : g.getVertex i = none := by
  unfold Graph.containsId at h
  cases hg : g.getVertex i with
  | none => rfl
  | some v => rw [hg] at h; simp at h

theorem getVertex_addVertex (g : Graph) (i j : VId) :
    (g.addVertex i).getVertex j = if j = i then some [] else g.getVertex j := by
  unfold Graph.addVertex
  by_cases hc : g.containsId i
  · simp only [hc, if_true]
    show assocFind (g.vertexDict.map _) j = _
    rw [assocFind_map_replace]
    by_cases hj : j = i
    · subst hj
      simp only [if_pos rfl]
      unfold Graph.containsId at hc
      unfold Graph.getVertex at hc ⊢
      cases hg : assocFind g.vertexDict j with
      | none => rw [hg] at hc; simp at hc
      | some ns => simp
    · rw [if_neg hj, if_neg hj]; rfl
  · simp only [hc, if_false]
    show assocFind (g.vertexDict ++ [(i, [])]) j = _
    rw [assocFind_append]
    have hnone : assocFind g.vertexDict i = none :=
      getVertex_eq_none_of_not_contains (by simp [hc])
    by_cases hj : j = i
    · subst hj
      rw [hnone]
      simp [assocFind]
    · cases hg : assocFind g.vertexDict j with
      | some v =>
        show some v = _
        rw [if_neg hj]
        simp [Graph.getVertex, hg]
      | none =>
        show assocFind [(i, [])] j = _
        rw [if_neg hj]
        simp only [assocFind, if_neg (Ne.symm hj)]
        simp [Graph.getVertex, hg]

theorem getVertex_addNeighbor (g : Graph) (u v j : VId) :
    (g.addNeighbor u v).getVertex j =
      (g.getVertex j).map (fun ns => if j = u then addNbrKey ns v else ns) := by
  show assocFind (g.vertexDict.map _) j = _
  exact assocFind_map_adjust u (fun ns => addNbrKey ns v) g.vertexDict j

theorem mem_addNbrKey (ns : List VId) (v b : VId) :
    b ∈ addNbrKey ns v ↔ b ∈ ns ∨ b = v := by
  unfold addNbrKey
  by_cases h : v ∈ ns
  · simp only [h, if_true]
    constructor
    · exact Or.inl
    · rintro (hb | rfl) <;> assumption
  · simp [h]

theorem isDirected_addVertex (g : Graph) (i : VId) :
    (g.addVertex i).isDirected = g.isDirected := by
  unfold Graph.addVertex; split <;> rfl

theorem isDirected_addNeighbor (g : Graph) (u v : VId) :
    (g.addNeighbor u v).isDirected = g.isDirected := rfl

theorem isDirected_ensureVertex (g : Graph) (i : VId) :
    (g.ensureVertex i).isDirected = g.isDirected := by
  unfold Graph.ensureVertex; split
  · exact isDirected_addVertex g i
  · rfl

theorem isDirected_linkEdge (g : Graph) (u v : VId) :
    (g.linkEdge u v).isDirected = g.isDirected := by
  unfold Graph.linkEdge; split <;> rfl

theorem isDirected_addEdge (g : Graph) (u v : VId) :
    (g.addEdge u v).isDirected = g.isDirected := by
  unfold Graph.addEdge
  rw [isDirected_linkEdge, isDirected_ensureVertex, isDirected_ensureVertex]

theorem containsId_addVertex (g : Graph) (i j : VId) :
    (g.addVertex i).containsId j = true ↔ (j = i ∨ g.containsId j = true) := by
  unfold Graph.containsId
  rw [getVertex_addVertex]
  by_cases hj : j = i <;> simp [hj]

theorem containsId_addNeighbor (g : Graph) (u v j : VId) :
    (g.addNeighbor u v).containsId j = g.containsId j := by
  unfold Graph.containsId
  rw [getVertex_addNeighbor]
  cases g.getVertex j <;> rfl

theorem containsId_ensureVertex (g : Graph) (i j : VId) :
    (g.ensureVertex i).containsId j = true ↔ (j = i ∨ g.containsId j = true) := by
  unfold Graph.ensureVertex
  split
  · exact containsId_addVertex g i j
  · next h =>
    have hc : g.containsId i = true := by
      unfold Graph.containsId
      cases hg : g.getVertex i with
      | none => rw [hg] at h; simp at h
      | some _ => rfl
    constructor
    · exact Or.inr
    · rintro (rfl | hj)
      · exact hc
      · exact hj

theorem containsId_linkEdge (g : Graph) (u v j : VId) :
    (g.linkEdge u v).containsId j = g.containsId j := by
  unfold Graph.linkEdge
  split
  · exact containsId_addNeighbor g u v j
  · rw [containsId_addNeighbor, containsId_addNeighbor]

theorem containsId_addEdge (g : Graph) (u v j : VId) :
    (g.addEdge u v).containsId j = true ↔
      (g.containsId j = true ∨ j = u ∨ j = v) := by
  unfold Graph.addEdge
  rw [containsId_linkEdge, containsId_ensureVertex, containsId_ensureVertex]
  tauto

theorem hasEdge_false_of_not_contains {g : Graph} {a : VId}
    (h : g.containsId a = false) (b : VId) : g.hasEdge a b = false := by
  unfold Graph.hasEdge Graph.neighborsD
  rw [getVertex_eq_none_of_not_contains h]
  rfl

theorem hasEdge_addVertex (g : Graph) (i a b : VId) :
    (g.addVertex i).hasEdge a b = true ↔ (a ≠ i ∧ g.hasEdge a b = true) := by
  unfold Graph.hasEdge Graph.neighborsD
  rw [getVertex_addVertex]
  by_cases ha : a = i
  · simp [ha]
  · simp [ha]

theorem hasEdge_addNeighbor (g : Graph) (u v a b : VId) :
    (g.addNeighbor u v).hasEdge a b = true ↔
      (g.hasEdge a b = true ∨ (a = u ∧ b = v ∧ g.containsId u = true)) := by
  unfold Graph.hasEdge Graph.neighborsD Graph.containsId
  rw [getVertex_addNeighbor]
  cases hg : g.getVertex a with
  | none =>
    constructor
    · intro h; simp at h
    · rintro (h | ⟨rfl, rfl, hc⟩)
      · simp at h
      · rw [hg] at hc; simp at hc
  | some ns =>
    by_cases ha : a = u
    · subst ha
      simp [mem_addNbrKey, hg]
    · simp [ha]

theorem hasEdge_ensureVertex (g : Graph) (i a b : VId) :
    (g.ensureVertex i).hasEdge a b = true ↔ g.hasEdge a b = true := by
  unfold Graph.ensureVertex
  split
  · next h =>
    rw [hasEdge_addVertex]
    constructor
    · rintro ⟨-, h2⟩; exact h2
    · intro h2
      refine ⟨?_, h2⟩
      rintro rfl
      have hc : g.containsId a = false := by
        unfold Graph.containsId
        cases hg : g.getVertex a with
        | none => rfl
        | some _ => rw [hg] at h; simp at h
      rw [hasEdge_false_of_not_contains hc] at h2
      exact absurd h2 (by simp)
  · exact Iff.rfl

theorem hasEdge_linkEdge (g : Graph) (u v a b : VId) :
    (g.linkEdge u v).hasEdge a b = true ↔
      (g.hasEdge a b = true ∨ (a = u ∧ b = v ∧ g.containsId u = true) ∨
        (g.isDirected = false ∧ a = v ∧ b = u ∧ g.containsId v = true)) := by
  unfold Graph.linkEdge
  split
  · next hdir =>
    rw [hasEdge_addNeighbor]
    constructor
    · rintro (h | h)
      · exact Or.inl h
      · exact Or.inr (Or.inl h)
    · rintro (h | h | ⟨hfalse, -⟩)
      · exact Or.inl h
      · exact Or.inr h
      · rw [hdir] at hfalse; exact absurd hfalse (by simp)
  · next hdir =>
    have hd : g.isDirected = false := by
      cases h : g.isDirected
      · rfl
      · exact absurd h hdir
    rw [hasEdge_addNeighbor, hasEdge_addNeighbor, containsId_addNeighbor]
    simp only [hd]
    tauto

theorem hasEdge_addEdge (g : Graph) (u v a b : VId) :
    (g.addEdge u v).hasEdge a b = true ↔
      (g.hasEdge a b = true ∨ (a = u ∧ b = v) ∨
        (g.isDirected = false ∧ a = v ∧ b = u)) := by
  unfold Graph.addEdge
  have c2u : ((g.ensureVertex u).ensureVertex v).containsId u = true := by
    rw [containsId_ensureVertex, containsId_ensureVertex]
    tauto
  have c2v : ((g.ensureVertex u).ensureVertex v).containsId v = true := by
    rw [containsId_ensureVertex]
    tauto
  have d2 : ((g.ensureVertex u).ensureVertex v).isDirected = g.isDirected := by
    rw [isDirected_ensureVertex, isDirected_ensureVertex]
  rw [hasEdge_linkEdge, hasEdge_ensureVertex, hasEdge_ensureVertex, c2u, c2v, d2]
  tauto

theorem assocFind_mem {α : Type} {l : List (VId × α)} {i : VId} {x : α}
    (h : assocFind l i = some x) : (i, x) ∈ l := by
  induction l with
  | nil => simp [assocFind] at h
  | cons p rest ih =>
    obtain ⟨k, v⟩ := p
    by_cases hk : k = i
    · subst hk
      simp only [assocFind, if_pos rfl] at h
      cases h
      exact List.mem_cons_self _ _
    · simp only [assocFind, if_neg hk] at h
      exact List.mem_cons_of_mem _ (ih h)

theorem hasEdge_elim {g : Graph} {u v : VId} (h : g.hasEdge u v = true) :
    ∃ ns, g.getVertex u = some ns ∧ v ∈ ns := by
  unfold Graph.hasEdge Graph.neighborsD at h
  cases hg : g.getVertex u with
  | none => rw [hg] at h; simp at h
  | some ns =>
    rw [hg] at h
    exact ⟨ns, rfl, by simpa using h⟩

theorem hasEdge_intro {g : Graph} {u v : VId} {ns : List VId}
    (hg : g.getVertex u = some ns) (hv : v ∈ ns) : g.hasEdge u v = true := by
  unfold Graph.hasEdge Graph.neighborsD
  rw [hg]
  simpa using hv

theorem properColoringB_sound {g : Graph} {c : VId → Bool}
    (h : g.properColoringB c = true) :
    ∀ u v, g.hasEdge u v = true → c u ≠ c v := by
  intro u v huv
  obtain ⟨ns, hg, hv⟩ := hasEdge_elim huv
  unfold Graph.properColoringB at h
  rw [List.all_eq_true] at h
  have hmem : (u, ns) ∈ g.vertexDict := assocFind_mem hg
  have h2 := h _ hmem
  rw [List.all_eq_true] at h2
  have h3 := h2 _ hv
  simpa using h3

theorem hasEdge_empty (d : Bool) (a b : VId) : (Graph.empty d).hasEdge a b = false := by
  simp [Graph.hasEdge, Graph.neighborsD, Graph.getVertex, Graph.empty, assocFind]

theorem closed_empty (d : Bool) : (Graph.empty d).Closed := by
  intro a b h
  rw [hasEdge_empty] at h
  exact absurd h (by simp)

theorem sym_empty (d : Bool) : (Graph.empty d).Sym := by
  intro a b h
  rw [hasEdge_empty] at h
  exact absurd h (by simp)

theorem hasEdge_addEdge_mono {g : Graph} {a b : VId} (u v : VId)
    (h : g.hasEdge a b = true) : (g.addEdge u v).hasEdge a b = true := by
  rw [hasEdge_addEdge]
  exact Or.inl h

theorem closed_addEdge {g : Graph} (u v : VId) (h : g.Closed) :
    (g.addEdge u v).Closed := by
  intro a b hab
  rw [hasEdge_addEdge] at hab
  rw [containsId_addEdge]
  rcases hab with h1 | ⟨rfl, rfl⟩ | ⟨-, rfl, rfl⟩
  · exact Or.inl (h a b h1)
  · tauto
  · tauto

theorem sym_addEdge {g : Graph} (u v : VId) (hd : g.isDirected = false)
    (hs : g.Sym) : (g.addEdge u v).Sym := by
  intro a b hab
  rw [hasEdge_addEdge] at hab ⊢
  rcases hab with h1 | ⟨rfl, rfl⟩ | ⟨-, rfl, rfl⟩
  · exact Or.inl (hs a b h1)
  · exact Or.inr (Or.inr ⟨hd, rfl, rfl⟩)
  · exact Or.inr (Or.inl ⟨rfl, rfl⟩)

theorem closed_addVertex_fresh {g : Graph} {i : VId}
    (h : g.Closed) : (g.addVertex i).Closed := by
  intro a b hab
  rw [hasEdge_addVertex] at hab
  obtain ⟨-, hab⟩ := hab
  rw [containsId_addVertex]
  exact Or.inr (h a b hab)

theorem sym_addVertex_fresh {g : Graph} {i : VId} (hfresh : g.containsId i = false)
    (hc : g.Closed) (hs : g.Sym) : (g.addVertex i).Sym := by
  intro a b hab
  rw [hasEdge_addVertex] at hab ⊢
  obtain ⟨ha, hab⟩ := hab
  refine ⟨?_, hs a b hab⟩
  intro hb
  subst hb
  have := hc a b hab
  rw [hfresh] at this
  exact absurd this (by simp)

theorem safeOps_sym_aux :
    ∀ (ops : List Op) (g : Graph), g.isDirected = false → g.Closed → g.Sym →
      safeOps g ops →
      (applyOps g ops).isDirected = false ∧ (applyOps g ops).Closed ∧
        (applyOps g ops).Sym := by
  intro ops
  induction ops with
  | nil =>
    intro g hd hc hs _
    exact ⟨hd, hc, hs⟩
  | cons op rest ih =>
    intro g hd hc hs hsafe
    cases op with
    | addV i =>
      obtain ⟨hfresh, hsafe'⟩ := hsafe
      have happ : applyOps g (Op.addV i :: rest) = applyOps (g.addVertex i) rest := rfl
      rw [happ]
      exact ih _ (by rw [isDirected_addVertex]; exact hd)
        (closed_addVertex_fresh hc) (sym_addVertex_fresh hfresh hc hs) hsafe'
    | addE u v =>
      have hsafe' : safeOps (applyOp g (.addE u v)) rest := hsafe
      have happ : applyOps g (Op.addE u v :: rest) = applyOps (g.addEdge u v) rest := rfl
      rw [happ]
      exact ih _ (by rw [isDirected_addEdge]; exact hd)
        (closed_addEdge u v hc) (sym_addEdge u v hd hs) hsafe'

/-- Claim C7: after add_edge(u, v), both endpoints are present as
vertices of the graph, whichever of them existed beforehand and whether
the graph is directed or undirected. -/
theorem C7_theorem : ∀ (g : Graph) (u v : VId),
    (g.addEdge u v).containsId u = true ∧ (g.addEdge u v).containsId v = true := by
  intro g u v
  constructor <;> rw [containsId_addEdge] <;> tauto

/-- Claim C10: add_edge creates a vertex only when the id is absent, so
every edge present before any sequence of add_edge calls is still
present afterward; neighbor sets only grow. -/
theorem C10_theorem : ∀ (g : Graph) (es : List (VId × VId)) (a b : VId),
    g.hasEdge a b = true →
    (es.foldl (fun gr p => gr.addEdge p.1 p.2) g).hasEdge a b = true := by
  intro g es
  induction es generalizing g with
  | nil => intro a b h; simpa using h
  | cons p rest ih =>
    intro a b h
    simp only [List.foldl_cons]
    exact ih _ a b (hasEdge_addEdge_mono p.1 p.2 h)

/-- Witness for C10 at a concrete graph: the edge 0-1 survives a later
add_edge(5, 6) call. -/
theorem C10_witness :
    (([((5 : VId), (6 : VId))]).foldl (fun gr p => gr.addEdge p.1 p.2)
      (buildDirected [(0, 1)])).hasEdge 0 1 = true :=
  C10_theorem (buildDirected [(0, 1)]) [(5, 6)] 0 1 (by decide)

/-- Claim C6 counterexample: after add_edge(0,1) and then add_vertex(0)
on an undirected graph, edge (1,0) is present but edge (0,1) is not, so
the symmetry invariant does not survive every add_vertex/add_edge
sequence. -/
theorem C6_counterexample : ¬ Graph.Sym symCexGraph := by
  intro h
  exact absurd (h 1 0 (by decide)) (by decide)

/-- Claim C6 (amended): for a graph constructed undirected, symmetry
holds after every sequence of add_edge and add_vertex operations in
which add_vertex is only applied to ids not already present (re-adding
an existing id drops its neighbor links and may break symmetry). -/
theorem C6_theorem : ∀ ops : List Op, safeOps (Graph.empty false) ops →
    (applyOps (Graph.empty false) ops).Sym := by
  intro ops hsafe
  exact (safeOps_sym_aux ops (Graph.empty false) rfl (closed_empty false)
    (sym_empty false) hsafe).2.2

/-- Witness for C6 at a concrete safe operation sequence. -/
theorem C6_witness : (applyOps (Graph.empty false) [Op.addE 0 1, Op.addV 2]).Sym :=
  C6_theorem [Op.addE 0 1, Op.addV 2] (by decide)

/-- Claim C2: the diamond 0-1, 0-2, 1-3, 2-3 admits the topological
order 0, 1, 2, 3 (it is a DAG), yet contains_cycle reports a cycle and
topological_sort raises the not-a-DAG ValueError: the code contradicts
its own documentation on this input. -/
theorem C2_theorem :
    diamondDAG.topoOrderOk [0, 1, 2, 3] = true ∧
    diamondDAG.containsCycle = Except.ok (some true) ∧
    diamondDAG.topologicalSort = Except.error PyErr.valueError := by
  refine ⟨by decide, by decide, by decide⟩

/-- Claim C9 counterexample: course_order on the given prerequisites
returns the ids visited by get_connected from 0, and that collection
contains 0 itself, so its underlying set is not the claimed 1, 2, 3. -/
theorem C9_counterexample :
    courseOrder 4 [(1, 0), (2, 0), (3, 1), (3, 2)] = Except.ok [0, 1, 2, 3] ∧
    ([0, 1, 2, 3] : List VId).toFinset ≠ ({1, 2, 3} : Finset ℕ) := by
  refine ⟨by decide, by decide⟩

/-- Claim C9 (amended): the underlying id set of the returned sequence
is 0, 1, 2, 3 - the reachable ids together with the start vertex 0,
which get_connected includes in its visited set. -/
theorem C9_theorem :
    ∃ l, courseOrder 4 [(1, 0), (2, 0), (3, 1), (3, 2)] = Except.ok l ∧
      l.toFinset = ({0, 1, 2, 3} : Finset ℕ) :=
  ⟨[0, 1, 2, 3], by decide, by decide⟩

/-- Claim C3 counterexample: contains_cycle raises IndexError on the
empty graph and on a graph whose first vertex has no neighbors;
is_bipartite raises IndexError on the empty graph; get_connected raises
AttributeError on an absent start id.  These operations are not total. -/
theorem C3_counterexample :
    (Graph.empty true).containsCycle = Except.error PyErr.indexError ∧
    (Graph.empty true).isBipartite = Except.error PyErr.indexError ∧
    ((Graph.empty true).addVertex 0).containsCycle = Except.error PyErr.indexError ∧
    (Graph.empty true).getConnected 5 = Except.error PyErr.attrError := by
  refine ⟨by decide, by decide, by decide, by decide⟩

/-- Claim C8 counterexample: find_vertices_n_away with an absent start
id raises AttributeError (get_vertex returns the none indicator and the
neighbor call on it fails) instead of returning the empty sequence. -/
theorem C8_counterexample :
    (buildDirected [(1, 2)]).findVerticesNAway 0 3 = Except.error PyErr.attrError := by
  decide

/-- Claim C1 counterexample: on the graph 0-1, 0-2, 1-3, 2-4, 4-3 the
LIFO frontier of find_shortest_path returns the path 0, 2, 4, 3 of
length 4 although 0, 1, 3 is a path of length 3, so the result is not a
shortest path. -/
theorem C1_counterexample :
    fspCexGraph.findShortestPath 0 3 = Except.ok (some [0, 2, 4, 3]) ∧
    fspCexGraph.pathOkB 0 3 [0, 1, 3] = true ∧
    ([0, 1, 3] : List VId).length < ([0, 2, 4, 3] : List VId).length := by
  refine ⟨by decide, by decide, by decide⟩

/-- Claim C4 counterexample: on the directed graph with vertex 0 added
first and the single edge 1-0, find_connected_components returns the
components 0 and 1, 0 - vertex 0 appears in two components, so the
result is not a partition (not pairwise disjoint, 0 appears twice). -/
theorem C4_counterexample :
    dupCompGraph.findConnectedComponents = Except.ok [[0], [1, 0]] ∧
    List.count 0 (List.flatten [[0], [1, 0]]) = 2 := by
  refine ⟨by decide, by decide⟩

/-- Claim C5 counterexample: on the undirected tree 0-1, 0-2, 1-3, 3-4
(whose component of 0 is two-colorable), is_bipartite started at the
selectable vertex 0 returns false: the per-pop toggled color drifts out
of phase with the BFS layers. -/
theorem C5_counterexample :
    bipTreeGraph.isBipartiteFrom 0 = Except.ok false ∧
    (0 : VId) ∈ bipTreeGraph.ids ∧
    bipTreeGraph.TwoColorable 0 := by
  refine ⟨by decide, by decide, ⟨fun n => n == 1 || n == 2 || n == 4, ?_⟩⟩
  intro u v _ huv
  exact @properColoringB_sound bipTreeGraph (fun n => n == 1 || n == 2 || n == 4) (by decide) u v huv

/-! ### Reachability and path lemmas -/

theorem hasEdge_iff_mem_neighborsD (g : Graph) (u v : VId) :
    g.hasEdge u v = true ↔ v ∈ g.neighborsD u := by
  simp [Graph.hasEdge]

theorem neighborsD_subset_ids {g : Graph} (hwf : g.WF) {u : VId}
    (hu : u ∈ g.ids) : ∀ n ∈ g.neighborsD u, n ∈ g.ids := by
  intro n hn
  have hsome : (g.getVertex u).isSome = true := (containsId_iff_mem_ids g u).mpr hu
  cases hg : g.getVertex u with
  | none => rw [hg] at hsome; simp at hsome
  | some ns =>
    have hmem : (u, ns) ∈ g.vertexDict := assocFind_mem hg
    have := (hwf.2 _ hmem).2 n
    apply this
    unfold Graph.neighborsD at hn
    rw [hg] at hn
    simpa using hn

theorem reach_closed {g : Graph} {P : VId → Prop} {s t : VId}
    (hs : P s) (hcl : ∀ x y, P x → g.hasEdge x y = true → P y)
    (h : g.Reach s t) : P t := by
  induction h with
  | refl => exact hs
  | tail hr hstep ih => exact hcl _ _ ih hstep

theorem snocGetLast {α : Type} (l : List α) (a : α) : (l ++ [a]).getLast? = some a := by
  rw [List.getLast?_append]
  rfl

theorem pathOkB_single (g : Graph) (s : VId) : g.pathOkB s s [s] = true := by
  simp [Graph.pathOkB, Graph.chainB]

theorem chainB_snoc (g : Graph) :
    ∀ (p : List VId) (x n : VId), g.chainB p = true → p.getLast? = some x →
      g.hasEdge x n = true → g.chainB (p ++ [n]) = true := by
  intro p
  induction p with
  | nil => intro x n _ h; simp at h
  | cons a rest ih =>
    intro x n hc hl he
    cases rest with
    | nil =>
      have : a = x := by simpa using hl
      subst this
      show g.chainB [a, n] = true
      simp [Graph.chainB, he]
    | cons b rest' =>
      unfold Graph.chainB at hc
      simp only [Bool.and_eq_true] at hc
      obtain ⟨hab, hc'⟩ := hc
      have hl' : (b :: rest').getLast? = some x := by simpa using hl
      have hrec := ih x n hc' hl' he
      have goal_eq : g.chainB ((a :: b :: rest') ++ [n]) =
          (g.hasEdge a b && g.chainB ((b :: rest') ++ [n])) := by
        simp [List.cons_append, Graph.chainB]
      rw [goal_eq, hab, hrec]
      rfl

theorem pathOkB_extend {g : Graph} {s x : VId} {p : List VId}
    (h : g.pathOkB s x p = true) {n : VId} (he : g.hasEdge x n = true) :
    g.pathOkB s n (p ++ [n]) = true := by
  unfold Graph.pathOkB at h ⊢
  simp only [Bool.and_eq_true, beq_iff_eq] at h ⊢
  obtain ⟨⟨⟨hne, hhead⟩, hlast⟩, hchain⟩ := h
  cases p with
  | nil => simp [List.isEmpty] at hne
  | cons a rest =>
    refine ⟨⟨⟨by simp, ?_⟩, ?_⟩, ?_⟩
    · show ((a :: rest) ++ [n]).head? = some s
      rw [List.cons_append]
      simpa using hhead
    · show ((a :: rest) ++ [n]).getLast? = some n
      exact snocGetLast _ _
    · exact chainB_snoc g (a :: rest) x n hchain hlast he

theorem pathOkB_reach (g : Graph) :
    ∀ (p : List VId) (s x : VId), g.pathOkB s x p = true → g.Reach s x := by
  intro p
  induction p with
  | nil => intro s x h; simp [Graph.pathOkB] at h
  | cons a rest ih =>
    intro s x h
    unfold Graph.pathOkB at h
    simp only [Bool.and_eq_true, beq_iff_eq] at h
    obtain ⟨⟨⟨-, hhead⟩, hlast⟩, hchain⟩ := h
    have ha : a = s := by simpa using hhead
    subst ha
    cases rest with
    | nil =>
      have : a = x := by simpa using hlast
      subst this
      exact Relation.ReflTransGen.refl
    | cons b rest' =>
      unfold Graph.chainB at hchain
      simp only [Bool.and_eq_true] at hchain
      obtain ⟨hab, hchain'⟩ := hchain
      have hnext : g.pathOkB b x (b :: rest') = true := by
        unfold Graph.pathOkB
        simp only [Bool.and_eq_true, beq_iff_eq]
        refine ⟨⟨⟨by simp, by simp⟩, ?_⟩, hchain'⟩
        simpa using hlast
      exact Relation.ReflTransGen.head hab (ih b x hnext)

/-! ### find_shortest_path: scan lemmas -/

theorem assocFind_append_of_isSome {α : Type} {l1 : List (VId × α)} {i : VId}
    (l2 : List (VId × α)) (h : (assocFind l1 i).isSome = true) :
    assocFind (l1 ++ l2) i = assocFind l1 i := by
  rw [assocFind_append]
  cases hf : assocFind l1 i with
  | none => rw [hf] at h; simp at h
  | some v => rfl

theorem assocFind_append_of_none {α : Type} {l1 : List (VId × α)} {i : VId}
    (l2 : List (VId × α)) (h : assocFind l1 i = none) :
    assocFind (l1 ++ l2) i = assocFind l2 i := by
  rw [assocFind_append, h]

theorem assocFind_singleton {α : Type} (k : VId) (x : α) (i : VId) :
    assocFind [(k, x)] i = if k = i then some x else none := by
  simp [assocFind]

theorem fspScan_cons_pos (curPath : List VId) (n : VId) (rest : List VId)
    (paths : List (VId × List VId)) (queue : List VId)
    (h : (assocFind paths n).isSome = true) :
    fspScan curPath (n :: rest) paths queue = fspScan curPath rest paths queue := by
  simp only [fspScan]
  rw [if_pos h]

theorem fspScan_cons_neg (curPath : List VId) (n : VId) (rest : List VId)
    (paths : List (VId × List VId)) (queue : List VId)
    (h : ¬ (assocFind paths n).isSome = true) :
    fspScan curPath (n :: rest) paths queue =
      fspScan curPath rest (paths ++ [(n, curPath ++ [n])]) (n :: queue) := by
  simp only [fspScan]
  rw [if_neg h]

theorem fspScan_preserve (curPath : List VId) :
    ∀ (ns : List VId) (paths : List (VId × List VId)) (queue : List VId) (x : VId),
      (assocFind paths x).isSome = true →
      assocFind (fspScan curPath ns paths queue).1 x = assocFind paths x := by
  intro ns
  induction ns with
  | nil => intro paths queue x _; rfl
  | cons n rest ih =>
    intro paths queue x hx
    by_cases h : (assocFind paths n).isSome = true
    · rw [fspScan_cons_pos curPath n rest paths queue h]
      exact ih paths queue x hx
    · rw [fspScan_cons_neg curPath n rest paths queue h]
      have hpres : assocFind (paths ++ [(n, curPath ++ [n])]) x = assocFind paths x :=
        assocFind_append_of_isSome _ hx
      rw [ih _ _ x (by rw [hpres]; exact hx), hpres]

theorem fspScan_keys (curPath : List VId) :
    ∀ (ns : List VId) (paths : List (VId × List VId)) (queue : List VId) (x : VId),
      x ∈ (fspScan curPath ns paths queue).1.map Prod.fst ↔
        (x ∈ paths.map Prod.fst ∨ x ∈ ns) := by
  intro ns
  induction ns with
  | nil => intro paths queue x; simp [fspScan]
  | cons n rest ih =>
    intro paths queue x
    by_cases h : (assocFind paths n).isSome = true
    · rw [fspScan_cons_pos curPath n rest paths queue h, ih]
      constructor
      · rintro (hx | hx)
        · exact Or.inl hx
        · exact Or.inr (List.mem_cons_of_mem _ hx)
      · rintro (hx | hx)
        · exact Or.inl hx
        · rcases List.mem_cons.mp hx with rfl | hx
          · exact Or.inl ((assocFind_isSome_iff _ _).mp h)
          · exact Or.inr hx
    · rw [fspScan_cons_neg curPath n rest paths queue h, ih]
      simp only [List.map_append, List.mem_append]
      constructor
      · rintro ((hx | hx) | hx)
        · exact Or.inl hx
        · simp at hx
          subst hx
          exact Or.inr (List.mem_cons_self _ _)
        · exact Or.inr (List.mem_cons_of_mem _ hx)
      · rintro (hx | hx)
        · exact Or.inl (Or.inl hx)
        · rcases List.mem_cons.mp hx with rfl | hx
          · exact Or.inl (Or.inr (by simp))
          · exact Or.inr hx

theorem fspScan_entries (g : Graph) (s cur : VId) (curPath : List VId)
    (hcur : g.pathOkB s cur curPath = true) :
    ∀ (ns : List VId) (paths : List (VId × List VId)) (queue : List VId),
      (∀ n ∈ ns, g.hasEdge cur n = true) →
      (∀ x px, assocFind paths x = some px → g.pathOkB s x px = true) →
      ∀ x px, assocFind (fspScan curPath ns paths queue).1 x = some px →
        g.pathOkB s x px = true := by
  intro ns
  induction ns with
  | nil =>
    intro paths queue _ hinv x px hx
    exact hinv x px hx
  | cons n rest ih =>
    intro paths queue hns hinv x px hx
    by_cases h : (assocFind paths n).isSome = true
    · rw [fspScan_cons_pos curPath n rest paths queue h] at hx
      exact ih paths queue (fun m hm => hns m (List.mem_cons_of_mem _ hm)) hinv x px hx
    · rw [fspScan_cons_neg curPath n rest paths queue h] at hx
      refine ih _ _ (fun m hm => hns m (List.mem_cons_of_mem _ hm)) ?_ x px hx
      intro y py hy
      cases hfy : assocFind paths y with
      | some v =>
        rw [assocFind_append_of_isSome _ (by rw [hfy]; simp)] at hy
        exact hinv y py hy
      | none =>
        rw [assocFind_append_of_none _ hfy, assocFind_singleton] at hy
        by_cases hyn : n = y
        · rw [if_pos hyn] at hy
          cases hy
          subst hyn
          exact pathOkB_extend hcur (hns n (List.mem_cons_self _ _))
        · rw [if_neg hyn] at hy
          cases hy

theorem fspScan_queue (curPath : List VId) :
    ∀ (ns : List VId) (paths : List (VId × List VId)) (queue : List VId) (q : VId),
      q ∈ (fspScan curPath ns paths queue).2 ↔
        (q ∈ queue ∨ (q ∈ ns ∧ ¬ q ∈ paths.map Prod.fst)) := by
  intro ns
  induction ns with
  | nil => intro paths queue q; simp [fspScan]
  | cons n rest ih =>
    intro paths queue q
    by_cases h : (assocFind paths n).isSome = true
    · rw [fspScan_cons_pos curPath n rest paths queue h, ih]
      constructor
      · rintro (hq | ⟨hq1, hq2⟩)
        · exact Or.inl hq
        · exact Or.inr ⟨List.mem_cons_of_mem _ hq1, hq2⟩
      · rintro (hq | ⟨hq1, hq2⟩)
        · exact Or.inl hq
        · rcases List.mem_cons.mp hq1 with rfl | hq1
          · exact absurd ((assocFind_isSome_iff _ _).mp h) hq2
          · exact Or.inr ⟨hq1, hq2⟩
    · rw [fspScan_cons_neg curPath n rest paths queue h, ih]
      have hnotmem : ¬ n ∈ paths.map Prod.fst := by
        intro hmem
        exact absurd ((assocFind_isSome_iff _ _).mpr hmem) (by simpa using h)
      constructor
      · rintro (hq | ⟨hq1, hq2⟩)
        · rcases List.mem_cons.mp hq with rfl | hq
          · exact Or.inr ⟨List.mem_cons_self _ _, hnotmem⟩
          · exact Or.inl hq
        · simp only [List.map_append, List.mem_append] at hq2
          push_neg at hq2
          exact Or.inr ⟨List.mem_cons_of_mem _ hq1, hq2.1⟩
      · rintro (hq | ⟨hq1, hq2⟩)
        · exact Or.inl (List.mem_cons_of_mem _ hq)
        · rcases List.mem_cons.mp hq1 with rfl | hq1
          · exact Or.inl (List.mem_cons_self _ _)
          · by_cases hqn : q = n
            · subst hqn
              exact Or.inl (List.mem_cons_self _ _)
            · refine Or.inr ⟨hq1, ?_⟩
              simp only [List.map_append, List.mem_append]
              push_neg
              exact ⟨hq2, by simp [hqn]⟩

theorem fspScan_queue_nodup (curPath : List VId) :
    ∀ (ns : List VId) (paths : List (VId × List VId)) (queue : List VId),
      queue.Nodup → (∀ q ∈ queue, q ∈ paths.map Prod.fst) →
      (fspScan curPath ns paths queue).2.Nodup := by
  intro ns
  induction ns with
  | nil => intro paths queue hnd _; exact hnd
  | cons n rest ih =>
    intro paths queue hnd hsub
    by_cases h : (assocFind paths n).isSome = true
    · rw [fspScan_cons_pos curPath n rest paths queue h]
      exact ih paths queue hnd hsub
    · rw [fspScan_cons_neg curPath n rest paths queue h]
      refine ih _ _ ?_ ?_
      · refine List.Nodup.cons ?_ hnd
        intro hmem
        have := hsub n hmem
        exact absurd ((assocFind_isSome_iff _ _).mpr this) (by simpa using h)
      · intro q hq
        simp only [List.map_append, List.mem_append]
        rcases List.mem_cons.mp hq with rfl | hq
        · exact Or.inr (by simp)
        · exact Or.inl (hsub q hq)

theorem fspScan_keys_nodup (curPath : List VId) :
    ∀ (ns : List VId) (paths : List (VId × List VId)) (queue : List VId),
      (paths.map Prod.fst).Nodup →
      ((fspScan curPath ns paths queue).1.map Prod.fst).Nodup := by
  intro ns
  induction ns with
  | nil => intro paths queue hnd; exact hnd
  | cons n rest ih =>
    intro paths queue hnd
    by_cases h : (assocFind paths n).isSome = true
    · rw [fspScan_cons_pos curPath n rest paths queue h]
      exact ih paths queue hnd
    · rw [fspScan_cons_neg curPath n rest paths queue h]
      refine ih _ _ ?_
      simp only [List.map_append]
      rw [List.nodup_append]
      refine ⟨hnd, by simp, ?_⟩
      intro x hx
      simp only [List.map_cons, List.map_nil, List.mem_singleton]
      intro hxn
      subst hxn
      exact absurd ((assocFind_isSome_iff _ _).mpr hx) (by simpa using h)

theorem fspScan_measure (g : Graph) (curPath : List VId) :
    ∀ (ns : List VId) (paths : List (VId × List VId)) (queue : List VId),
      (∀ n ∈ ns, n ∈ g.ids) →
      (fspScan curPath ns paths queue).2.length +
        (g.ids.toFinset \ ((fspScan curPath ns paths queue).1.map Prod.fst).toFinset).card =
      queue.length + (g.ids.toFinset \ (paths.map Prod.fst).toFinset).card := by
  intro ns
  induction ns with
  | nil => intro paths queue _; rfl
  | cons n rest ih =>
    intro paths queue hns
    by_cases h : (assocFind paths n).isSome = true
    · rw [fspScan_cons_pos curPath n rest paths queue h]
      exact ih paths queue (fun m hm => hns m (List.mem_cons_of_mem _ hm))
    · rw [fspScan_cons_neg curPath n rest paths queue h]
      rw [ih _ _ (fun m hm => hns m (List.mem_cons_of_mem _ hm))]
      have hn_ids : n ∈ g.ids.toFinset := by
        rw [List.mem_toFinset]
        exact hns n (List.mem_cons_self _ _)
      have hn_not : n ∉ (paths.map Prod.fst).toFinset := by
        rw [List.mem_toFinset]
        intro hmem
        exact absurd ((assocFind_isSome_iff _ _).mpr hmem) (by simpa using h)
      have hkeys : ((paths ++ [(n, curPath ++ [n])]).map Prod.fst).toFinset =
          insert n (paths.map Prod.fst).toFinset := by
        ext x
        simp [or_comm]
      rw [hkeys]
      have hmem_sdiff : n ∈ g.ids.toFinset \ (paths.map Prod.fst).toFinset :=
        Finset.mem_sdiff.mpr ⟨hn_ids, hn_not⟩
      have hsd : g.ids.toFinset \ insert n (paths.map Prod.fst).toFinset =
          (g.ids.toFinset \ (paths.map Prod.fst).toFinset).erase n := by
        rw [Finset.sdiff_insert]
      rw [hsd, Finset.card_erase_of_mem hmem_sdiff]
      have hpos : 0 < (g.ids.toFinset \ (paths.map Prod.fst).toFinset).card :=
        Finset.card_pos.mpr ⟨n, hmem_sdiff⟩
      simp only [List.length_cons]
      omega

/-! ### find_shortest_path: loop invariant and claim C1 -/

theorem fspLoop_nil (g : Graph) (t : VId) (fuel : Nat) (paths : List (VId × List VId)) :
    fspLoop g t (fuel + 1) paths [] = Except.ok (assocFind paths t) := rfl

theorem fspLoop_cons_target (g : Graph) (t : VId) (fuel : Nat)
    (paths : List (VId × List VId)) (cur : VId) (rest : List VId) (hct : cur = t) :
    fspLoop g t (fuel + 1) paths (cur :: rest) = Except.ok (assocFind paths t) := by
  show (if cur = t then Except.ok (assocFind paths t) else _) = _
  rw [if_pos hct]

theorem fspLoop_cons_some (g : Graph) (t : VId) (fuel : Nat)
    (paths : List (VId × List VId)) (cur : VId) (rest : List VId) (curPath : List VId)
    (hct : ¬ cur = t) (hpc : assocFind paths cur = some curPath) :
    fspLoop g t (fuel + 1) paths (cur :: rest) =
      fspLoop g t fuel (fspScan curPath (g.neighborsD cur) paths rest).1
        (fspScan curPath (g.neighborsD cur) paths rest).2 := by
  show (if cur = t then Except.ok (assocFind paths t)
      else
        match assocFind paths cur with
        | none => Except.error PyErr.keyError
        | some curPath =>
          let st := fspScan curPath (g.neighborsD cur) paths rest
          fspLoop g t fuel st.1 st.2) = _
  rw [if_neg hct, hpc]

theorem mem_keys_find_some {α : Type} {paths : List (VId × α)} {x : VId}
    (h : x ∈ paths.map Prod.fst) : ∃ px, assocFind paths x = some px := by
  have := (assocFind_isSome_iff paths x).mpr h
  cases hac : assocFind paths x with
  | none => rw [hac] at this; simp at this
  | some v => exact ⟨v, rfl⟩

theorem fspLoop_spec (g : Graph) (hwf : g.WF) (s t : VId) :
    ∀ (fuel : Nat) (paths : List (VId × List VId)) (queue : List VId),
      (∀ x px, assocFind paths x = some px → g.pathOkB s x px = true) →
      (∀ q ∈ queue, q ∈ paths.map Prod.fst) →
      queue.Nodup →
      (∀ x ∈ paths.map Prod.fst, x ∉ queue →
        ∀ y, g.hasEdge x y = true → y ∈ paths.map Prod.fst) →
      s ∈ paths.map Prod.fst →
      (paths.map Prod.fst).Nodup →
      (∀ x ∈ paths.map Prod.fst, x ∈ g.ids) →
      queue.length + (g.ids.toFinset \ (paths.map Prod.fst).toFinset).card < fuel →
      ∃ r, fspLoop g t fuel paths queue = Except.ok r ∧
        ((∃ p, r = some p ∧ g.pathOkB s t p = true) ∨ (r = none ∧ ¬ g.Reach s t)) := by
  intro fuel
  induction fuel with
  | zero => intro paths queue _ _ _ _ _ _ _ hm; omega
  | succ fuel ih =>
    intro paths queue hI1 hI2 hI3 hI4 hI5 hI6 hI7 hm
    cases queue with
    | nil =>
      refine ⟨assocFind paths t, fspLoop_nil g t fuel paths, ?_⟩
      cases hft : assocFind paths t with
      | some pt => exact Or.inl ⟨pt, rfl, hI1 t pt hft⟩
      | none =>
        refine Or.inr ⟨rfl, ?_⟩
        intro hreach
        have ht : t ∈ paths.map Prod.fst :=
          reach_closed hI5 (fun x y hx he => hI4 x hx (by simp) y he) hreach
        have := (assocFind_isSome_iff paths t).mpr ht
        rw [hft] at this
        exact absurd this (by simp)
    | cons cur rest =>
      have hkc : cur ∈ paths.map Prod.fst := hI2 cur (by simp)
      obtain ⟨pc, hpc⟩ := mem_keys_find_some hkc
      by_cases hct : cur = t
      · subst hct
        refine ⟨assocFind paths cur, fspLoop_cons_target g cur fuel paths cur rest rfl, ?_⟩
        rw [hpc]
        exact Or.inl ⟨pc, rfl, hI1 _ _ hpc⟩
      · have hcur_ok : g.pathOkB s cur pc = true := hI1 _ _ hpc
        have hcur_ids : cur ∈ g.ids := hI7 cur hkc
        have hns_edges : ∀ n ∈ g.neighborsD cur, g.hasEdge cur n = true := fun n hn =>
          (hasEdge_iff_mem_neighborsD g cur n).mpr hn
        have hns_ids : ∀ n ∈ g.neighborsD cur, n ∈ g.ids :=
          neighborsD_subset_ids hwf hcur_ids
        rw [fspLoop_cons_some g t fuel paths cur rest pc hct hpc]
        have hrest_sub : ∀ q ∈ rest, q ∈ paths.map Prod.fst := fun q hq =>
          hI2 q (List.mem_cons_of_mem _ hq)
        have hkeys2 := fspScan_keys pc (g.neighborsD cur) paths rest
        have hqueue2 := fspScan_queue pc (g.neighborsD cur) paths rest
        apply ih
        · exact fspScan_entries g s cur pc hcur_ok (g.neighborsD cur) paths rest
            hns_edges hI1
        · intro q hq
          rw [hqueue2 q] at hq
          rw [hkeys2 q]
          rcases hq with hq | ⟨hq1, -⟩
          · exact Or.inl (hrest_sub q hq)
          · exact Or.inr hq1
        · exact fspScan_queue_nodup pc (g.neighborsD cur) paths rest
            (List.Nodup.of_cons hI3) hrest_sub
        · intro x hx hxq y hy
          rw [hkeys2]
          by_cases hxcur : x = cur
          · subst hxcur
            exact Or.inr ((hasEdge_iff_mem_neighborsD g x y).mp hy)
          · by_cases hxkeys : x ∈ paths.map Prod.fst
            · have hxrest : x ∉ rest := by
                intro hxr
                exact hxq ((hqueue2 x).mpr (Or.inl hxr))
              have hxqueue : x ∉ cur :: rest := by
                intro hxcr
                rcases List.mem_cons.mp hxcr with h | h
                · exact hxcur h
                · exact hxrest h
              exact Or.inl (hI4 x hxkeys hxqueue y hy)
            · rw [hkeys2 x] at hx
              rcases hx with hx | hx
              · exact absurd hx hxkeys
              · exact absurd ((hqueue2 x).mpr (Or.inr ⟨hx, hxkeys⟩)) hxq
        · rw [hkeys2]
          exact Or.inl hI5
        · exact fspScan_keys_nodup pc (g.neighborsD cur) paths rest hI6
        · intro x hx
          rw [hkeys2 x] at hx
          rcases hx with hx | hx
          · exact hI7 x hx
          · exact hns_ids x hx
        · have hmeq := fspScan_measure g pc (g.neighborsD cur) paths rest hns_ids
          rw [hmeq]
          simp only [List.length_cons] at hm
          omega

/-- Claim C1 (amended): for present endpoints on a well-formed graph,
find_shortest_path returns a sequence of ids from start to target
inclusive that is a path of the graph (not necessarily of minimum
length, because the frontier is popped LIFO) whenever target is
reachable from start, and returns the not-found indicator (None)
whenever target is unreachable. -/
theorem C1_theorem (g : Graph) (s t : VId) (hwf : g.WF)
    (hs : g.containsId s = true) (ht : g.containsId t = true) :
    (g.Reach s t → ∃ p, g.findShortestPath s t = Except.ok (some p) ∧
        g.pathOkB s t p = true) ∧
    (¬ g.Reach s t → g.findShortestPath s t = Except.ok none) := by
  have hs' : s ∈ g.ids := (containsId_iff_mem_ids g s).mp hs
  have hguard : ¬ ((!g.containsId s || !g.containsId t) = true) := by
    rw [hs, ht]
    simp
  have hfsp : g.findShortestPath s t =
      fspLoop g t (g.vertexDict.length + 1) [(s, [s])] [s] := by
    unfold Graph.findShortestPath
    rw [if_neg hguard]
  have hI1 : ∀ x px, assocFind [(s, [s])] x = some px → g.pathOkB s x px = true := by
    intro x px hx
    rw [assocFind_singleton] at hx
    by_cases hxs : s = x
    · rw [if_pos hxs] at hx
      cases hx
      subst hxs
      exact pathOkB_single g s
    · rw [if_neg hxs] at hx
      cases hx
  have hmem : s ∈ ([(s, [s])].map Prod.fst) := by simp
  have hcard : 1 + (g.ids.toFinset \ ([(s, [s])].map Prod.fst).toFinset).card <
      g.vertexDict.length + 1 := by
    have hsub : g.ids.toFinset \ ([(s, [s])].map Prod.fst).toFinset ⊆ g.ids.toFinset :=
      Finset.sdiff_subset
    have hss : g.ids.toFinset \ ([(s, [s])].map Prod.fst).toFinset ⊂ g.ids.toFinset := by
      rw [Finset.ssubset_iff_of_subset hsub]
      refine ⟨s, by rw [List.mem_toFinset]; exact hs', ?_⟩
      simp
    have h1 := Finset.card_lt_card hss
    have h2 : g.ids.toFinset.card ≤ g.ids.length := List.toFinset_card_le _
    have h3 : g.ids.length = g.vertexDict.length := by
      unfold Graph.ids
      exact List.length_map _ _
    omega
  obtain ⟨r, hr, hcases⟩ := fspLoop_spec g hwf s t (g.vertexDict.length + 1)
    [(s, [s])] [s] hI1
    (by intro q hq; simp at hq; subst hq; exact hmem)
    (by simp)
    (by intro x hx hxq; simp at hx; subst hx; simp at hxq)
    hmem
    (by simp)
    (by intro x hx; simp at hx; subst hx; exact hs')
    (by simpa using hcard)
  rw [hfsp] at *
  constructor
  · intro hreach
    rcases hcases with ⟨p, rfl, hp⟩ | ⟨rfl, hnr⟩
    · exact ⟨p, hr, hp⟩
    · exact absurd hreach hnr
  · intro hnreach
    rcases hcases with ⟨p, rfl, hp⟩ | ⟨rfl, hnr⟩
    · exact absurd (pathOkB_reach g p s t hp) hnreach
    · exact hr

/-- Witness for C1 on the concrete graph with the single edge 0-1. -/
theorem C1_witness :
    ((buildDirected [(0, 1)]).Reach 0 1 →
      ∃ p, (buildDirected [(0, 1)]).findShortestPath 0 1 = Except.ok (some p) ∧
        (buildDirected [(0, 1)]).pathOkB 0 1 p = true) ∧
    (¬ (buildDirected [(0, 1)]).Reach 0 1 →
      (buildDirected [(0, 1)]).findShortestPath 0 1 = Except.ok none) :=
  C1_theorem (buildDirected [(0, 1)]) 0 1 (by decide) (by decide) (by decide)

/-! ### get_connected: totality on present start ids -/

theorem getVertex_isSome_iff (g : Graph) (i : VId) :
    (g.getVertex i).isSome = true ↔ i ∈ g.ids := containsId_iff_mem_ids g i

theorem gcScan_cons_pos (n : VId) (rest visited queue : List VId)
    (h : n ∈ visited) :
    gcScan (n :: rest) visited queue = gcScan rest visited queue := by
  simp only [gcScan]
  rw [if_pos h]

theorem gcScan_cons_neg (n : VId) (rest visited queue : List VId)
    (h : ¬ n ∈ visited) :
    gcScan (n :: rest) visited queue =
      gcScan rest (visited ++ [n]) (queue ++ [n]) := by
  simp only [gcScan]
  rw [if_neg h]

theorem gcScan_queue_mem :
    ∀ (ns visited queue : List VId) (q : VId),
      q ∈ (gcScan ns visited queue).2 → (q ∈ queue ∨ q ∈ ns) := by
  intro ns
  induction ns with
  | nil => intro visited queue q hq; exact Or.inl hq
  | cons n rest ih =>
    intro visited queue q hq
    by_cases h : n ∈ visited
    · rw [gcScan_cons_pos n rest visited queue h] at hq
      rcases ih _ _ _ hq with h1 | h1
      · exact Or.inl h1
      · exact Or.inr (List.mem_cons_of_mem _ h1)
    · rw [gcScan_cons_neg n rest visited queue h] at hq
      rcases ih _ _ _ hq with h1 | h1
      · rcases List.mem_append.mp h1 with h2 | h2
        · exact Or.inl h2
        · simp at h2
          subst h2
          exact Or.inr (List.mem_cons_self _ _)
      · exact Or.inr (List.mem_cons_of_mem _ h1)

theorem gcScan_visited_mem :
    ∀ (ns visited queue : List VId) (x : VId),
      x ∈ (gcScan ns visited queue).1 ↔ (x ∈ visited ∨ x ∈ ns) := by
  intro ns
  induction ns with
  | nil => intro visited queue x; simp [gcScan]
  | cons n rest ih =>
    intro visited queue x
    by_cases h : n ∈ visited
    · rw [gcScan_cons_pos n rest visited queue h, ih]
      constructor
      · rintro (hx | hx)
        · exact Or.inl hx
        · exact Or.inr (List.mem_cons_of_mem _ hx)
      · rintro (hx | hx)
        · exact Or.inl hx
        · rcases List.mem_cons.mp hx with rfl | hx
          · exact Or.inl h
          · exact Or.inr hx
    · rw [gcScan_cons_neg n rest visited queue h, ih]
      simp only [List.mem_append, List.mem_singleton]
      constructor
      · rintro ((hx | hx) | hx)
        · exact Or.inl hx
        · subst hx
          exact Or.inr (List.mem_cons_self _ _)
        · exact Or.inr (List.mem_cons_of_mem _ hx)
      · rintro (hx | hx)
        · exact Or.inl (Or.inl hx)
        · rcases List.mem_cons.mp hx with rfl | hx
          · exact Or.inl (Or.inr rfl)
          · exact Or.inr hx

theorem gcScan_measure (g : Graph) :
    ∀ (ns visited queue : List VId),
      (∀ n ∈ ns, n ∈ g.ids) →
      (gcScan ns visited queue).2.length +
        (g.ids.toFinset \ (gcScan ns visited queue).1.toFinset).card =
      queue.length + (g.ids.toFinset \ visited.toFinset).card := by
  intro ns
  induction ns with
  | nil => intro visited queue _; rfl
  | cons n rest ih =>
    intro visited queue hns
    by_cases h : n ∈ visited
    · rw [gcScan_cons_pos n rest visited queue h]
      exact ih visited queue (fun m hm => hns m (List.mem_cons_of_mem _ hm))
    · rw [gcScan_cons_neg n rest visited queue h]
      rw [ih _ _ (fun m hm => hns m (List.mem_cons_of_mem _ hm))]
      have hn_ids : n ∈ g.ids.toFinset := by
        rw [List.mem_toFinset]
        exact hns n (List.mem_cons_self _ _)
      have hn_not : n ∉ visited.toFinset := by
        rw [List.mem_toFinset]
        exact h
      have hkeys : (visited ++ [n]).toFinset = insert n visited.toFinset := by
        ext x
        simp [or_comm]
      rw [hkeys]
      have hmem_sdiff : n ∈ g.ids.toFinset \ visited.toFinset :=
        Finset.mem_sdiff.mpr ⟨hn_ids, hn_not⟩
      rw [Finset.sdiff_insert, Finset.card_erase_of_mem hmem_sdiff]
      have hpos : 0 < (g.ids.toFinset \ visited.toFinset).card :=
        Finset.card_pos.mpr ⟨n, hmem_sdiff⟩
      simp only [List.length_append, List.length_singleton]
      omega

theorem gcLoop_cons (g : Graph) (fuel : Nat) (visited : List VId)
    (cur : VId) (rest : List VId) :
    gcLoop g (fuel + 1) visited (cur :: rest) =
      match g.getVertex cur with
      | none => Except.error PyErr.attrError
      | some ns =>
        gcLoop g fuel (gcScan ns visited rest).1 (gcScan ns visited rest).2 := rfl

theorem gcLoop_spec (g : Graph) (hwf : g.WF) :
    ∀ (fuel : Nat) (visited queue : List VId),
      (∀ q ∈ queue, q ∈ g.ids) →
      queue.length + (g.ids.toFinset \ visited.toFinset).card < fuel →
      ∃ out, gcLoop g fuel visited queue = Except.ok out := by
  intro fuel
  induction fuel with
  | zero => intro visited queue _ hm; omega
  | succ fuel ih =>
    intro visited queue hq hm
    cases queue with
    | nil => exact ⟨visited, rfl⟩
    | cons cur rest =>
      have hcur : cur ∈ g.ids := hq cur (by simp)
      have hsome : (g.getVertex cur).isSome = true := (getVertex_isSome_iff g cur).mpr hcur
      cases hgv : g.getVertex cur with
      | none => rw [hgv] at hsome; simp at hsome
      | some ns =>
        rw [gcLoop_cons, hgv]
        have hns_ids : ∀ n ∈ ns, n ∈ g.ids := by
          intro n hn
          apply neighborsD_subset_ids hwf hcur
          unfold Graph.neighborsD
          rw [hgv]
          simpa using hn
        apply ih
        · intro q hq2
          rcases gcScan_queue_mem ns visited rest q hq2 with h1 | h1
          · exact hq q (List.mem_cons_of_mem _ h1)
          · exact hns_ids q h1
        · have hmeq := gcScan_measure g ns visited rest hns_ids
          rw [hmeq]
          simp only [List.length_cons] at hm
          omega

theorem getConnected_present (g : Graph) (hwf : g.WF) (s : VId)
    (hs : g.containsId s = true) :
    ∃ out, g.getConnected s = Except.ok out := by
  unfold Graph.getConnected
  apply gcLoop_spec g hwf
  · intro q hq
    simp at hq
    rw [hq]
    exact (containsId_iff_mem_ids g s).mp hs
  · have h1 : (g.ids.toFinset \ ([s] : List VId).toFinset).card < g.ids.toFinset.card := by
      apply Finset.card_lt_card
      rw [Finset.ssubset_iff_of_subset Finset.sdiff_subset]
      refine ⟨s, ?_, by simp⟩
      rw [List.mem_toFinset]
      exact (containsId_iff_mem_ids g s).mp hs
    have h2 : g.ids.toFinset.card ≤ g.ids.length := List.toFinset_card_le _
    have h3 : g.ids.length = g.vertexDict.length := List.length_map _ _
    simp only [List.length_singleton]
    omega

theorem getConnected_absent (g : Graph) (s : VId)
    (hs : g.containsId s = false) :
    g.getConnected s = Except.error PyErr.attrError := by
  unfold Graph.getConnected
  rw [gcLoop_cons, getVertex_eq_none_of_not_contains hs]

/-! ### find_vertices_n_away: totality on present start ids -/

theorem fnvaScan_cons_pos (dist : Nat) (n : VId) (rest visited : List VId)
    (queue : List (VId × Nat)) (h : n ∈ visited) :
    fnvaScan dist (n :: rest) visited queue = fnvaScan dist rest visited queue := by
  simp only [fnvaScan]
  rw [if_pos h]

theorem fnvaScan_cons_neg (dist : Nat) (n : VId) (rest visited : List VId)
    (queue : List (VId × Nat)) (h : ¬ n ∈ visited) :
    fnvaScan dist (n :: rest) visited queue =
      fnvaScan dist rest (visited ++ [n]) ((n, dist + 1) :: queue) := by
  simp only [fnvaScan]
  rw [if_neg h]

theorem fnvaScan_queue_mem (dist : Nat) :
    ∀ (ns visited : List VId) (queue : List (VId × Nat)) (q : VId × Nat),
      q ∈ (fnvaScan dist ns visited queue).2 → (q ∈ queue ∨ q.1 ∈ ns) := by
  intro ns
  induction ns with
  | nil => intro visited queue q hq; exact Or.inl hq
  | cons n rest ih =>
    intro visited queue q hq
    by_cases h : n ∈ visited
    · rw [fnvaScan_cons_pos dist n rest visited queue h] at hq
      rcases ih _ _ _ hq with h1 | h1
      · exact Or.inl h1
      · exact Or.inr (List.mem_cons_of_mem _ h1)
    · rw [fnvaScan_cons_neg dist n rest visited queue h] at hq
      rcases ih _ _ _ hq with h1 | h1
      · rcases List.mem_cons.mp h1 with h2 | h2
        · subst h2
          exact Or.inr (by simp)
        · exact Or.inl h2
      · exact Or.inr (List.mem_cons_of_mem _ h1)

theorem fnvaScan_measure (g : Graph) (dist : Nat) :
    ∀ (ns visited : List VId) (queue : List (VId × Nat)),
      (∀ n ∈ ns, n ∈ g.ids) →
      (fnvaScan dist ns visited queue).2.length +
        (g.ids.toFinset \ (fnvaScan dist ns visited queue).1.toFinset).card =
      queue.length + (g.ids.toFinset \ visited.toFinset).card := by
  intro ns
  induction ns with
  | nil => intro visited queue _; rfl
  | cons n rest ih =>
    intro visited queue hns
    by_cases h : n ∈ visited
    · rw [fnvaScan_cons_pos dist n rest visited queue h]
      exact ih visited queue (fun m hm => hns m (List.mem_cons_of_mem _ hm))
    · rw [fnvaScan_cons_neg dist n rest visited queue h]
      rw [ih _ _ (fun m hm => hns m (List.mem_cons_of_mem _ hm))]
      have hn_ids : n ∈ g.ids.toFinset := by
        rw [List.mem_toFinset]
        exact hns n (List.mem_cons_self _ _)
      have hn_not : n ∉ visited.toFinset := by
        rw [List.mem_toFinset]
        exact h
      have hkeys : (visited ++ [n]).toFinset = insert n visited.toFinset := by
        ext x
        simp [or_comm]
      rw [hkeys]
      have hmem_sdiff : n ∈ g.ids.toFinset \ visited.toFinset :=
        Finset.mem_sdiff.mpr ⟨hn_ids, hn_not⟩
      rw [Finset.sdiff_insert, Finset.card_erase_of_mem hmem_sdiff]
      have hpos : 0 < (g.ids.toFinset \ visited.toFinset).card :=
        Finset.card_pos.mpr ⟨n, hmem_sdiff⟩
      simp only [List.length_cons]
      omega

theorem fnvaLoop_cons (g : Graph) (d fuel : Nat) (visited out : List VId)
    (cur : VId) (dist : Nat) (rest : List (VId × Nat)) :
    fnvaLoop g d (fuel + 1) visited out ((cur, dist) :: rest) =
      match g.getVertex cur with
      | none => Except.error PyErr.attrError
      | some ns =>
        fnvaLoop g d fuel (fnvaScan dist ns visited rest).1
          (if dist = d then out ++ [cur] else out) (fnvaScan dist ns visited rest).2 := rfl

theorem fnvaLoop_spec (g : Graph) (hwf : g.WF) (d : Nat) :
    ∀ (fuel : Nat) (visited out : List VId) (queue : List (VId × Nat)),
      (∀ q ∈ queue, q.1 ∈ g.ids) →
      queue.length + (g.ids.toFinset \ visited.toFinset).card < fuel →
      ∃ res, fnvaLoop g d fuel visited out queue = Except.ok res := by
  intro fuel
  induction fuel with
  | zero => intro visited out queue _ hm; omega
  | succ fuel ih =>
    intro visited out queue hq hm
    cases queue with
    | nil => exact ⟨out, rfl⟩
    | cons qh rest =>
      obtain ⟨cur, dist⟩ := qh
      have hcur : cur ∈ g.ids := hq (cur, dist) (by simp)
      have hsome : (g.getVertex cur).isSome = true := (getVertex_isSome_iff g cur).mpr hcur
      cases hgv : g.getVertex cur with
      | none => rw [hgv] at hsome; simp at hsome
      | some ns =>
        rw [fnvaLoop_cons, hgv]
        have hns_ids : ∀ n ∈ ns, n ∈ g.ids := by
          intro n hn
          apply neighborsD_subset_ids hwf hcur
          unfold Graph.neighborsD
          rw [hgv]
          simpa using hn
        apply ih
        · intro q hq2
          rcases fnvaScan_queue_mem dist ns visited rest q hq2 with h1 | h1
          · exact hq q (List.mem_cons_of_mem _ h1)
          · exact hns_ids q.1 h1
        · have hmeq := fnvaScan_measure g dist ns visited rest hns_ids
          rw [hmeq]
          simp only [List.length_cons] at hm
          omega

theorem findVerticesNAway_present (g : Graph) (hwf : g.WF) (s : VId) (d : Nat)
    (hs : g.containsId s = true) :
    ∃ res, g.findVerticesNAway s d = Except.ok res := by
  unfold Graph.findVerticesNAway
  apply fnvaLoop_spec g hwf
  · intro q hq
    simp at hq
    rw [hq]
    exact (containsId_iff_mem_ids g s).mp hs
  · have h1 : (g.ids.toFinset \ ([s] : List VId).toFinset).card < g.ids.toFinset.card := by
      apply Finset.card_lt_card
      rw [Finset.ssubset_iff_of_subset Finset.sdiff_subset]
      refine ⟨s, ?_, by simp⟩
      rw [List.mem_toFinset]
      exact (containsId_iff_mem_ids g s).mp hs
    have h2 : g.ids.toFinset.card ≤ g.ids.length := List.toFinset_card_le _
    have h3 : g.ids.length = g.vertexDict.length := List.length_map _ _
    simp only [List.length_singleton]
    omega

theorem findVerticesNAway_absent (g : Graph) (s : VId) (d : Nat)
    (hs : g.containsId s = false) :
    g.findVerticesNAway s d = Except.error PyErr.attrError := by
  unfold Graph.findVerticesNAway
  rw [fnvaLoop_cons, getVertex_eq_none_of_not_contains hs]

/-- Claim C8 (amended): for an absent start id, find_vertices_n_away
raises AttributeError (no value is returned) for every graph and every
distance; for a present start id on a well-formed graph it returns a
sequence normally, the empty sequence when the traversal records no
vertex at the target distance. -/
theorem C8_theorem (g : Graph) (s : VId) (d : Nat) :
    (g.containsId s = false →
      g.findVerticesNAway s d = Except.error PyErr.attrError) ∧
    (g.WF → g.containsId s = true →
      ∃ res, g.findVerticesNAway s d = Except.ok res) := by
  constructor
  · intro hs
    exact findVerticesNAway_absent g s d hs
  · intro hwf hs
    exact findVerticesNAway_present g hwf s d hs

/-- Witness for C8: the absent id 7 raises, the present id 1 returns. -/
theorem C8_witness :
    ((buildDirected [(1, 2)]).containsId 7 = false →
      (buildDirected [(1, 2)]).findVerticesNAway 7 0 = Except.error PyErr.attrError) ∧
    ((buildDirected [(1, 2)]).WF → (buildDirected [(1, 2)]).containsId 7 = true →
      ∃ res, (buildDirected [(1, 2)]).findVerticesNAway 7 0 = Except.ok res) :=
  C8_theorem (buildDirected [(1, 2)]) 7 0

/-! ### is_bipartite: neighbor-scan lemma, totality and soundness -/

theorem bipNbrs_nil (cc : Nat) (cur : VId) (visited : List (VId × Nat)) (queue : List VId) :
    bipNbrs cc cur [] visited queue = Except.ok (some (visited, queue)) := rfl

theorem bipNbrs_cons_fresh (cc : Nat) (cur n : VId) (ns : List VId)
    (visited : List (VId × Nat)) (queue : List VId)
    (h : assocFind visited n = none) :
    bipNbrs cc cur (n :: ns) visited queue =
      bipNbrs cc cur ns (visited ++ [(n, cc)]) (queue ++ [n]) := by
  simp only [bipNbrs]
  rw [h]

theorem bipNbrs_cons_seen_eq (cc : Nat) (cur n : VId) (ns : List VId)
    (visited : List (VId × Nat)) (queue : List VId) (cn ccur : Nat)
    (hn : assocFind visited n = some cn) (hc : assocFind visited cur = some ccur)
    (heq : ccur = cn) :
    bipNbrs cc cur (n :: ns) visited queue = Except.ok none := by
  simp only [bipNbrs]
  rw [hn, hc]
  show (if ccur = cn then Except.ok none else bipNbrs cc cur ns visited queue) = _
  rw [if_pos heq]

theorem bipNbrs_cons_seen_ne (cc : Nat) (cur n : VId) (ns : List VId)
    (visited : List (VId × Nat)) (queue : List VId) (cn ccur : Nat)
    (hn : assocFind visited n = some cn) (hc : assocFind visited cur = some ccur)
    (hne : ¬ ccur = cn) :
    bipNbrs cc cur (n :: ns) visited queue = bipNbrs cc cur ns visited queue := by
  simp only [bipNbrs]
  rw [hn, hc]
  show (if ccur = cn then Except.ok none else bipNbrs cc cur ns visited queue) = _
  rw [if_neg hne]

theorem bipNbrs_spec (g : Graph) (cc : Nat) (cur : VId) :
    ∀ (ns : List VId) (visited : List (VId × Nat)) (queue : List VId),
      (assocFind visited cur).isSome = true →
      ∃ res, bipNbrs cc cur ns visited queue = Except.ok res ∧
        (res = none ∨
          ∃ v2 q2, res = some (v2, q2) ∧
            (∀ x, (assocFind visited x).isSome = true →
              assocFind v2 x = assocFind visited x) ∧
            (∀ x, x ∈ v2.map Prod.fst ↔ (x ∈ visited.map Prod.fst ∨ x ∈ ns)) ∧
            (∀ q, q ∈ q2 ↔ (q ∈ queue ∨ (q ∈ ns ∧ ¬ q ∈ visited.map Prod.fst))) ∧
            ((∀ n ∈ ns, n ∈ g.ids) →
              q2.length + (g.ids.toFinset \ (v2.map Prod.fst).toFinset).card =
                queue.length + (g.ids.toFinset \ (visited.map Prod.fst).toFinset).card) ∧
            (∀ x c, assocFind v2 x = some c →
              (assocFind visited x = some c ∨ c = cc)) ∧
            (∀ n ∈ ns, ∀ cn ccur, assocFind visited n = some cn →
              assocFind visited cur = some ccur → ¬ ccur = cn) ∧
            ((visited.map Prod.fst).Nodup → (v2.map Prod.fst).Nodup) ∧
            (queue.Nodup → (∀ q ∈ queue, q ∈ visited.map Prod.fst) → q2.Nodup)) := by
  intro ns
  induction ns with
  | nil =>
    intro visited queue hcur
    refine ⟨some (visited, queue), bipNbrs_nil cc cur visited queue, Or.inr ?_⟩
    refine ⟨visited, queue, rfl, fun x _ => rfl, by simp, by simp, fun _ => rfl,
      fun x c hx => Or.inl hx, by simp, fun h => h, fun h _ => h⟩
  | cons n rest ih =>
    intro visited queue hcur
    obtain ⟨ccur, hccur⟩ : ∃ c, assocFind visited cur = some c := by
      cases hac : assocFind visited cur with
      | none => rw [hac] at hcur; simp at hcur
      | some c => exact ⟨c, rfl⟩
    cases hn : assocFind visited n with
    | some cn =>
      by_cases heq : ccur = cn
      · refine ⟨none, bipNbrs_cons_seen_eq cc cur n rest visited queue cn ccur hn hccur heq,
          Or.inl rfl⟩
      · rw [bipNbrs_cons_seen_ne cc cur n rest visited queue cn ccur hn hccur heq]
        obtain ⟨res, hres, hdisj⟩ := ih visited queue hcur
        refine ⟨res, hres, ?_⟩
        rcases hdisj with rfl | ⟨v2, q2, rfl, d1, d2, d3, d4, d5, d6, d7, d8⟩
        · exact Or.inl rfl
        · have hnkeys : n ∈ visited.map Prod.fst :=
            (assocFind_isSome_iff _ _).mp (by rw [hn]; rfl)
          refine Or.inr ⟨v2, q2, rfl, d1, ?_, ?_, ?_, d5, ?_, d7, d8⟩
          · intro x
            rw [d2 x]
            constructor
            · rintro (hx | hx)
              · exact Or.inl hx
              · exact Or.inr (List.mem_cons_of_mem _ hx)
            · rintro (hx | hx)
              · exact Or.inl hx
              · rcases List.mem_cons.mp hx with rfl | hx
                · exact Or.inl hnkeys
                · exact Or.inr hx
          · intro q
            rw [d3 q]
            constructor
            · rintro (hq | ⟨hq1, hq2⟩)
              · exact Or.inl hq
              · exact Or.inr ⟨List.mem_cons_of_mem _ hq1, hq2⟩
            · rintro (hq | ⟨hq1, hq2⟩)
              · exact Or.inl hq
              · rcases List.mem_cons.mp hq1 with rfl | hq1
                · exact absurd hnkeys hq2
                · exact Or.inr ⟨hq1, hq2⟩
          · intro hids
            exact d4 (fun m hm => hids m (List.mem_cons_of_mem _ hm))
          · intro m hm cm ccur' hmfind hcfind
            rcases List.mem_cons.mp hm with rfl | hm
            · rw [hmfind] at hn
              cases hn
              rw [hcfind] at hccur
              cases hccur
              exact heq
            · exact d6 m hm cm ccur' hmfind hcfind
    | none =>
      rw [bipNbrs_cons_fresh cc cur n rest visited queue hn]
      have hnotmem : ¬ n ∈ visited.map Prod.fst := by
        intro hmem
        have := (assocFind_isSome_iff visited n).mpr hmem
        rw [hn] at this
        simp at this
      have hcur' : (assocFind (visited ++ [(n, cc)]) cur).isSome = true := by
        rw [assocFind_append_of_isSome _ hcur]
        exact hcur
      obtain ⟨res, hres, hdisj⟩ := ih (visited ++ [(n, cc)]) (queue ++ [n]) hcur'
      refine ⟨res, hres, ?_⟩
      rcases hdisj with rfl | ⟨v2, q2, rfl, d1, d2, d3, d4, d5, d6, d7, d8⟩
      · exact Or.inl rfl
      · have hkeys' : ∀ x, x ∈ (visited ++ [(n, cc)]).map Prod.fst ↔
            (x ∈ visited.map Prod.fst ∨ x = n) := by
          intro x
          simp [List.map_append]
        have hpres : ∀ x, (assocFind visited x).isSome = true →
            assocFind (visited ++ [(n, cc)]) x = assocFind visited x := fun x hx =>
          assocFind_append_of_isSome _ hx
        refine Or.inr ⟨v2, q2, rfl, ?_, ?_, ?_, ?_, ?_, ?_, ?_, ?_⟩
        · intro x hx
          rw [d1 x (by rw [hpres x hx]; exact hx), hpres x hx]
        · intro x
          rw [d2 x, hkeys' x]
          constructor
          · rintro ((hx | hx) | hx)
            · exact Or.inl hx
            · subst hx
              exact Or.inr (List.mem_cons_self _ _)
            · exact Or.inr (List.mem_cons_of_mem _ hx)
          · rintro (hx | hx)
            · exact Or.inl (Or.inl hx)
            · rcases List.mem_cons.mp hx with rfl | hx
              · exact Or.inl (Or.inr rfl)
              · exact Or.inr hx
        · intro q
          rw [d3 q]
          constructor
          · rintro (hq | ⟨hq1, hq2⟩)
            · rcases List.mem_append.mp hq with hq | hq
              · exact Or.inl hq
              · simp at hq
                subst hq
                exact Or.inr ⟨List.mem_cons_self _ _, hnotmem⟩
            · rw [hkeys' q] at hq2
              push_neg at hq2
              exact Or.inr ⟨List.mem_cons_of_mem _ hq1, hq2.1⟩
          · rintro (hq | ⟨hq1, hq2⟩)
            · exact Or.inl (List.mem_append.mpr (Or.inl hq))
            · rcases List.mem_cons.mp hq1 with rfl | hq1
              · exact Or.inl (List.mem_append.mpr (Or.inr (by simp)))
              · by_cases hqn : q = n
                · subst hqn
                  exact Or.inl (List.mem_append.mpr (Or.inr (by simp)))
                · refine Or.inr ⟨hq1, ?_⟩
                  rw [hkeys' q]
                  push_neg
                  exact ⟨hq2, hqn⟩
        · intro hids
          have hrec := d4 (fun m hm => hids m (List.mem_cons_of_mem _ hm))
          rw [hrec]
          have hn_ids : n ∈ g.ids.toFinset := by
            rw [List.mem_toFinset]
            exact hids n (List.mem_cons_self _ _)
          have hn_not : n ∉ (visited.map Prod.fst).toFinset := by
            rw [List.mem_toFinset]
            exact hnotmem
          have hkeysF : ((visited ++ [(n, cc)]).map Prod.fst).toFinset =
              insert n (visited.map Prod.fst).toFinset := by
            ext x
            simp [or_comm]
          rw [hkeysF]
          have hmem_sdiff : n ∈ g.ids.toFinset \ (visited.map Prod.fst).toFinset :=
            Finset.mem_sdiff.mpr ⟨hn_ids, hn_not⟩
          rw [Finset.sdiff_insert, Finset.card_erase_of_mem hmem_sdiff]
          have hpos : 0 < (g.ids.toFinset \ (visited.map Prod.fst).toFinset).card :=
            Finset.card_pos.mpr ⟨n, hmem_sdiff⟩
          simp only [List.length_append, List.length_singleton]
          omega
        · intro x c hx
          rcases d5 x c hx with hx2 | hx2
          · cases hfx : assocFind visited x with
            | some v =>
              rw [assocFind_append_of_isSome _ (by rw [hfx]; rfl)] at hx2
              rw [hfx] at hx2
              exact Or.inl hx2
            | none =>
              rw [assocFind_append_of_none _ hfx, assocFind_singleton] at hx2
              by_cases hxn : n = x
              · rw [if_pos hxn] at hx2
                cases hx2
                exact Or.inr rfl
              · rw [if_neg hxn] at hx2
                cases hx2
          · exact Or.inr hx2
        · intro m hm cm ccur' hmfind hcfind
          rcases List.mem_cons.mp hm with rfl | hm
          · rw [hmfind] at hn
            cases hn
          · have hmfind' : assocFind (visited ++ [(n, cc)]) m = some cm := by
              rw [assocFind_append_of_isSome _ (by rw [hmfind]; rfl)]
              exact hmfind
            have hcfind' : assocFind (visited ++ [(n, cc)]) cur = some ccur' := by
              rw [assocFind_append_of_isSome _ hcur]
              exact hcfind
            exact d6 m hm cm ccur' hmfind' hcfind'
        · intro hnd
          apply d7
          simp only [List.map_append]
          rw [List.nodup_append]
          refine ⟨hnd, by simp, ?_⟩
          intro x hx
          simp only [List.map_cons, List.map_nil, List.mem_singleton]
          intro hxn
          subst hxn
          exact hnotmem hx
        · intro hnd hsub
          apply d8
          · rw [List.nodup_append]
            refine ⟨hnd, by simp, ?_⟩
            intro x hx
            simp only [List.mem_singleton]
            intro hxn
            subst hxn
            exact hnotmem (hsub x hx)
          · intro q hq
            rcases List.mem_append.mp hq with hq | hq
            · rw [hkeys' q]
              exact Or.inl (hsub q hq)
            · simp at hq
              subst hq
              rw [hkeys' q]
              exact Or.inr rfl

theorem bipLoop_cons (g : Graph) (fuel cc : Nat) (visited : List (VId × Nat))
    (cur : VId) (rest : List VId) :
    bipLoop g (fuel + 1) cc visited (cur :: rest) =
      match g.getVertex cur with
      | none => Except.error PyErr.attrError
      | some ns =>
        match bipNbrs (cc ^^^ 1) cur ns visited rest with
        | Except.error e => Except.error e
        | Except.ok none => Except.ok false
        | Except.ok (some st) => bipLoop g fuel (cc ^^^ 1) st.1 st.2 := rfl

theorem bipLoop_cons_some (g : Graph) (fuel cc : Nat) (visited : List (VId × Nat))
    (cur : VId) (rest : List VId) (ns : List VId) (hgv : g.getVertex cur = some ns) :
    bipLoop g (fuel + 1) cc visited (cur :: rest) =
      match bipNbrs (cc ^^^ 1) cur ns visited rest with
      | Except.error e => Except.error e
      | Except.ok none => Except.ok false
      | Except.ok (some st) => bipLoop g fuel (cc ^^^ 1) st.1 st.2 := by
  rw [bipLoop_cons, hgv]

theorem xor01 {c : Nat} (h : c = 0 ∨ c = 1) : (c ^^^ 1) = 0 ∨ (c ^^^ 1) = 1 := by
  rcases h with rfl | rfl
  · exact Or.inr rfl
  · exact Or.inl rfl

theorem sym_of_symB {g : Graph} (h : g.symB = true) : g.Sym := by
  intro u v huv
  obtain ⟨ns, hg, hv⟩ := hasEdge_elim huv
  unfold Graph.symB at h
  rw [List.all_eq_true] at h
  have h2 := h _ (assocFind_mem hg)
  rw [List.all_eq_true] at h2
  exact h2 v hv

theorem bipLoop_total (g : Graph) (hwf : g.WF) :
    ∀ (fuel cc : Nat) (visited : List (VId × Nat)) (queue : List VId),
      (∀ q ∈ queue, q ∈ visited.map Prod.fst) →
      (∀ x ∈ visited.map Prod.fst, x ∈ g.ids) →
      queue.length + (g.ids.toFinset \ (visited.map Prod.fst).toFinset).card < fuel →
      ∃ b, bipLoop g fuel cc visited queue = Except.ok b := by
  intro fuel
  induction fuel with
  | zero => intro cc visited queue _ _ hm; omega
  | succ fuel ih =>
    intro cc visited queue J1 J2 hm
    cases queue with
    | nil => exact ⟨true, rfl⟩
    | cons cur rest =>
      have hcurkeys : cur ∈ visited.map Prod.fst := J1 cur (by simp)
      have hcurids : cur ∈ g.ids := J2 cur hcurkeys
      have hsome : (g.getVertex cur).isSome = true := (getVertex_isSome_iff g cur).mpr hcurids
      cases hgv : g.getVertex cur with
      | none => rw [hgv] at hsome; simp at hsome
      | some ns =>
        rw [bipLoop_cons_some g fuel cc visited cur rest ns hgv]
        have hns_ids : ∀ n ∈ ns, n ∈ g.ids := by
          intro n hn
          apply neighborsD_subset_ids hwf hcurids
          unfold Graph.neighborsD
          rw [hgv]
          simpa using hn
        have hcur : (assocFind visited cur).isSome = true :=
          (assocFind_isSome_iff _ _).mpr hcurkeys
        obtain ⟨res, hres, hdisj⟩ := bipNbrs_spec g (cc ^^^ 1) cur ns visited rest hcur
        rw [hres]
        rcases hdisj with rfl | ⟨v2, q2, rfl, d1, d2, d3, d4, d5, d6, d7, d8⟩
        · exact ⟨false, rfl⟩
        · show ∃ b, bipLoop g fuel (cc ^^^ 1) v2 q2 = Except.ok b
          apply ih
          · intro q hq
            rw [d2 q]
            rcases (d3 q).mp hq with hq2 | ⟨hq2, -⟩
            · exact Or.inl (J1 q (List.mem_cons_of_mem _ hq2))
            · exact Or.inr hq2
          · intro x hx
            rcases (d2 x).mp hx with hx2 | hx2
            · exact J2 x hx2
            · exact hns_ids x hx2
          · rw [d4 hns_ids]
            simp only [List.length_cons] at hm
            omega

theorem bipLoop_sound (g : Graph) (hwf : g.WF) (hsym : g.Sym) (s : VId) :
    ∀ (fuel cc : Nat) (visited : List (VId × Nat)) (queue : List VId),
      (∀ q ∈ queue, q ∈ visited.map Prod.fst) →
      queue.Nodup →
      (∀ x ∈ visited.map Prod.fst, x ∈ g.ids) →
      (∀ x ∈ visited.map Prod.fst, g.Reach s x) →
      (∀ x ∈ visited.map Prod.fst, x ∉ queue →
        ∀ y, g.hasEdge x y = true → y ∈ visited.map Prod.fst) →
      (∀ x y, x ∈ visited.map Prod.fst → x ∉ queue →
        y ∈ visited.map Prod.fst → y ∉ queue →
        g.hasEdge x y = true → assocFind visited x ≠ assocFind visited y) →
      (∀ x c, assocFind visited x = some c → c = 0 ∨ c = 1) →
      (cc = 0 ∨ cc = 1) →
      bipLoop g fuel cc visited queue = Except.ok true →
      ∃ m : List (VId × Nat),
        (∀ x ∈ visited.map Prod.fst, x ∈ m.map Prod.fst) ∧
        (∀ x ∈ m.map Prod.fst, ∀ y, g.hasEdge x y = true → y ∈ m.map Prod.fst) ∧
        (∀ x y, x ∈ m.map Prod.fst → y ∈ m.map Prod.fst → g.hasEdge x y = true →
          assocFind m x ≠ assocFind m y) ∧
        (∀ x c, assocFind m x = some c → c = 0 ∨ c = 1) := by
  intro fuel
  induction fuel with
  | zero =>
    intro cc visited queue _ _ _ _ _ _ _ _ hloop
    exact absurd hloop (by simp [bipLoop])
  | succ fuel ih =>
    intro cc visited queue J1 J6 J2 J3 J4 J5 J8 J9 hloop
    cases queue with
    | nil =>
      refine ⟨visited, fun x hx => hx, ?_, ?_, J8⟩
      · intro x hx y hy
        exact J4 x hx (by simp) y hy
      · intro x y hx hy hedge
        exact J5 x y hx (by simp) hy (by simp) hedge
    | cons cur rest =>
      cases hgv : g.getVertex cur with
      | none =>
        rw [bipLoop_cons, hgv] at hloop
        simp at hloop
      | some ns =>
        rw [bipLoop_cons_some g fuel cc visited cur rest ns hgv] at hloop
        have hcurkeys : cur ∈ visited.map Prod.fst := J1 cur (by simp)
        have hcurids : cur ∈ g.ids := J2 cur hcurkeys
        have hcur : (assocFind visited cur).isSome = true :=
          (assocFind_isSome_iff _ _).mpr hcurkeys
        have hns_ids : ∀ n ∈ ns, n ∈ g.ids := by
          intro n hn
          apply neighborsD_subset_ids hwf hcurids
          unfold Graph.neighborsD
          rw [hgv]
          simpa using hn
        have hnsD : g.neighborsD cur = ns := by
          unfold Graph.neighborsD
          rw [hgv]
          rfl
        have hedge_ns : ∀ y, g.hasEdge cur y = true ↔ y ∈ ns := by
          intro y
          rw [hasEdge_iff_mem_neighborsD, hnsD]
        obtain ⟨res, hres, hdisj⟩ := bipNbrs_spec g (cc ^^^ 1) cur ns visited rest hcur
        rw [hres] at hloop
        rcases hdisj with rfl | ⟨v2, q2, rfl, d1, d2, d3, d4, d5, d6, d7, d8⟩
        · simp at hloop
        · have hloop' : bipLoop g fuel (cc ^^^ 1) v2 q2 = Except.ok true := hloop
          have hrest_sub : ∀ q ∈ rest, q ∈ visited.map Prod.fst := fun q hq =>
            J1 q (List.mem_cons_of_mem _ hq)
          have hcurnotrest : cur ∉ rest := (List.nodup_cons.mp J6).1
          -- every vertex out of the new queue that was an old key is out of the old queue
          have hold_scanned : ∀ z, z ∈ visited.map Prod.fst → z ∉ q2 → z ≠ cur →
              z ∉ (cur :: rest) := by
            intro z hz hzq2 hzcur hzq
            rcases List.mem_cons.mp hzq with h | h
            · exact hzcur h
            · exact hzq2 ((d3 z).mpr (Or.inl h))
          -- keys of the new state that escaped the new queue were old keys
          have hnew_scanned_old : ∀ z, z ∈ v2.map Prod.fst → z ∉ q2 →
              z ∈ visited.map Prod.fst := by
            intro z hz hzq2
            rcases (d2 z).mp hz with h | h
            · exact h
            · by_cases hzk : z ∈ visited.map Prod.fst
              · exact hzk
              · exact absurd ((d3 z).mpr (Or.inr ⟨h, hzk⟩)) hzq2
          have K1 : ∀ q ∈ q2, q ∈ v2.map Prod.fst := by
            intro q hq
            rw [d2 q]
            rcases (d3 q).mp hq with hq2 | ⟨hq2, -⟩
            · exact Or.inl (hrest_sub q hq2)
            · exact Or.inr hq2
          have K2 : q2.Nodup := d8 (List.nodup_cons.mp J6).2 hrest_sub
          have K3 : ∀ x ∈ v2.map Prod.fst, x ∈ g.ids := by
            intro x hx
            rcases (d2 x).mp hx with hx2 | hx2
            · exact J2 x hx2
            · exact hns_ids x hx2
          have K4 : ∀ x ∈ v2.map Prod.fst, g.Reach s x := by
            intro x hx
            rcases (d2 x).mp hx with hx2 | hx2
            · exact J3 x hx2
            · exact Relation.ReflTransGen.tail (J3 cur hcurkeys) ((hedge_ns x).mpr hx2)
          have K5 : ∀ x ∈ v2.map Prod.fst, x ∉ q2 →
              ∀ y, g.hasEdge x y = true → y ∈ v2.map Prod.fst := by
            intro x hx hxq2 y hy
            rw [d2 y]
            by_cases hxcur : x = cur
            · subst hxcur
              exact Or.inr ((hedge_ns y).mp hy)
            · have hxold : x ∈ visited.map Prod.fst := hnew_scanned_old x hx hxq2
              exact Or.inl (J4 x hxold (hold_scanned x hxold hxq2 hxcur) y hy)
          have K6 : ∀ x y, x ∈ v2.map Prod.fst → x ∉ q2 →
              y ∈ v2.map Prod.fst → y ∉ q2 →
              g.hasEdge x y = true → assocFind v2 x ≠ assocFind v2 y := by
            intro x y hx hxq2 hy hyq2 hedge
            have hxold : x ∈ visited.map Prod.fst := hnew_scanned_old x hx hxq2
            have hyold : y ∈ visited.map Prod.fst := hnew_scanned_old y hy hyq2
            have hxv : assocFind v2 x = assocFind visited x :=
              d1 x ((assocFind_isSome_iff _ _).mpr hxold)
            have hyv : assocFind v2 y = assocFind visited y :=
              d1 y ((assocFind_isSome_iff _ _).mpr hyold)
            rw [hxv, hyv]
            obtain ⟨cx, hcx⟩ := mem_keys_find_some hxold
            obtain ⟨cy, hcy⟩ := mem_keys_find_some hyold
            obtain ⟨ccur, hccur⟩ := mem_keys_find_some hcurkeys
            by_cases hxcur : x = cur
            · subst hxcur
              by_cases hycur : y = x
              · subst hycur
                have hyns : y ∈ ns := (hedge_ns y).mp hedge
                exact absurd rfl (d6 y hyns cy cy hcy hcy)
              · have hyns : y ∈ ns := (hedge_ns y).mp hedge
                have hneq := d6 y hyns cy ccur hcy hccur
                rw [hcy, hccur]
                intro heq
                cases heq
                exact hneq rfl
            · by_cases hycur : y = cur
              · subst hycur
                have hedge2 : g.hasEdge y x = true := hsym x y hedge
                have hxns : x ∈ ns := (hedge_ns x).mp hedge2
                have hneq := d6 x hxns cx ccur hcx hccur
                rw [hcx, hccur]
                intro heq
                cases heq
                exact hneq rfl
              · exact J5 x y hxold (hold_scanned x hxold hxq2 hxcur) hyold
                  (hold_scanned y hyold hyq2 hycur) hedge
          have K7 : ∀ x c, assocFind v2 x = some c → c = 0 ∨ c = 1 := by
            intro x c hx
            rcases d5 x c hx with hx2 | hx2
            · exact J8 x c hx2
            · rw [hx2]
              exact xor01 J9
          obtain ⟨m, e1, e2, e3, e4⟩ :=
            ih (cc ^^^ 1) v2 q2 K1 K2 K3 K4 K5 K6 K7 (xor01 J9) hloop'
          refine ⟨m, ?_, e2, e3, e4⟩
          intro x hx
          exact e1 x ((d2 x).mpr (Or.inl hx))

theorem containsCycle_empty (g : Graph) (h : g.ids = []) :
    g.containsCycle = Except.error PyErr.indexError := by
  unfold Graph.containsCycle
  rw [h]

theorem isBipartite_empty (g : Graph) (h : g.ids = []) :
    g.isBipartite = Except.error PyErr.indexError := by
  unfold Graph.isBipartite
  rw [h]

theorem isBipartiteFrom_total (g : Graph) (hwf : g.WF) (s : VId) (hs : s ∈ g.ids) :
    ∃ b, g.isBipartiteFrom s = Except.ok b := by
  unfold Graph.isBipartiteFrom
  apply bipLoop_total g hwf
  · intro q hq
    simp at hq
    rw [hq]
    simp
  · intro x hx
    simp at hx
    rw [hx]
    exact hs
  · have h1 : (g.ids.toFinset \ ([(s, 0)].map Prod.fst : List VId).toFinset).card <
        g.ids.toFinset.card := by
      apply Finset.card_lt_card
      rw [Finset.ssubset_iff_of_subset Finset.sdiff_subset]
      refine ⟨s, ?_, by simp⟩
      rw [List.mem_toFinset]
      exact hs
    have h2 : g.ids.toFinset.card ≤ g.ids.length := List.toFinset_card_le _
    have h3 : g.ids.length = g.vertexDict.length := List.length_map _ _
    simp only [List.length_singleton]
    omega

/-- Claim C5 (amended): for every non-empty well-formed undirected graph
(symmetric adjacency, the setting in which connected components are
meaningful) and every vertex the random start choice may select, if
is_bipartite returns true then the start vertex's connected component
admits a proper 2-coloring; a false return however does not imply the
component is not 2-colorable, because neighbor colors are taken from a
per-iteration toggled counter rather than derived from the current
vertex's color (see the counterexample). -/
theorem C5_theorem (g : Graph) (s : VId) (hwf : g.WF) (hsym : g.Sym)
    (hs : s ∈ g.ids) (htrue : g.isBipartiteFrom s = Except.ok true) :
    g.TwoColorable s := by
  unfold Graph.isBipartiteFrom at htrue
  obtain ⟨m, hm1, hm2, hm3, hm4⟩ := bipLoop_sound g hwf hsym s
    (g.vertexDict.length + 1) 0 [(s, 0)] [s]
    (by intro q hq; simp at hq; rw [hq]; simp)
    (by simp)
    (by intro x hx; simp at hx; rw [hx]; exact hs)
    (by intro x hx; simp at hx; rw [hx]; exact Relation.ReflTransGen.refl)
    (by intro x hx hxq; simp at hx; rw [hx] at hxq; simp at hxq)
    (by intro x y hx hxq; simp at hx; rw [hx] at hxq; simp at hxq)
    (by
      intro x c hx
      rw [assocFind_singleton] at hx
      by_cases hsx : s = x
      · rw [if_pos hsx] at hx
        cases hx
        exact Or.inl rfl
      · rw [if_neg hsx] at hx
        cases hx)
    (Or.inl rfl)
    htrue
  have hsm : s ∈ m.map Prod.fst := hm1 s (by simp)
  have hreach_sub : ∀ u, g.Reach s u → u ∈ m.map Prod.fst := fun u hu =>
    reach_closed hsm (fun x y hx he => hm2 x hx y he) hu
  refine ⟨fun x => decide (assocFind m x = some 1), ?_⟩
  intro u v hu he
  have hum : u ∈ m.map Prod.fst := hreach_sub u hu
  have hvm : v ∈ m.map Prod.fst := hm2 u hum v he
  have hne := hm3 u v hum hvm he
  obtain ⟨cu, hcu⟩ := mem_keys_find_some hum
  obtain ⟨cv, hcv⟩ := mem_keys_find_some hvm
  have hcu01 := hm4 u cu hcu
  have hcv01 := hm4 v cv hcv
  rw [hcu, hcv] at hne
  show decide (assocFind m u = some 1) ≠ decide (assocFind m v = some 1)
  rw [hcu, hcv]
  have hcucv : ¬ cu = cv := by
    intro heq
    rw [heq] at hne
    exact hne rfl
  rcases hcu01 with rfl | rfl <;> rcases hcv01 with rfl | rfl <;> simp_all

/-- Witness for C5 on the undirected single-edge graph 0-1, where the
check from start 0 returns true. -/
theorem C5_witness : (buildUndirected [(0, 1)]).TwoColorable 0 :=
  C5_theorem (buildUndirected [(0, 1)]) 0 (by decide)
    (sym_of_symB (by decide)) (by decide) (by decide)

/-! ### contains_cycle: totality on graphs whose first vertex has a neighbor -/

theorem getLast?_some_of_ne_nil {α : Type} {l : List α} (h : l ≠ []) :
    ∃ b, l.getLast? = some b :=
  ⟨l.getLast h, List.getLast?_eq_getLast l h⟩

theorem dfsNbrs_nil_eq (rec : VId → List VId → List Bool →
      Except PyErr (Option Bool × List VId × List Bool))
    (vis : List VId) (rs : List Bool) (b : Bool) (hb : rs.getLast? = some b) :
    dfsNbrs rec [] vis rs = Except.ok (some b, vis, rs) := by
  simp only [dfsNbrs]
  rw [hb]

theorem dfsNbrs_cons_seen (rec : VId → List VId → List Bool →
      Except PyErr (Option Bool × List VId × List Bool))
    (n : VId) (ns vis : List VId) (rs : List Bool) (hn : n ∈ vis) :
    dfsNbrs rec (n :: ns) vis rs = Except.ok (none, vis, rs ++ [true]) := by
  simp only [dfsNbrs]
  rw [if_pos hn]

theorem dfsNbrs_cons_fresh (rec : VId → List VId → List Bool →
      Except PyErr (Option Bool × List VId × List Bool))
    (n : VId) (ns vis : List VId) (rs : List Bool)
    (st : Option Bool × List VId × List Bool)
    (hn : ¬ n ∈ vis) (hrec : rec n vis (rs ++ [false]) = Except.ok st) :
    dfsNbrs rec (n :: ns) vis rs = dfsNbrs rec ns st.2.1 st.2.2 := by
  simp only [dfsNbrs]
  rw [if_neg hn, hrec]

theorem dfsCycle_step (g : Graph) (fuel : Nat) (v : VId) (vis : List VId)
    (rs : List Bool) (ns : List VId) (hgv : g.getVertex v = some ns) :
    dfsCycle g (fuel + 1) v vis rs =
      dfsNbrs (fun w v2 r2 => dfsCycle g fuel w v2 r2) ns (vis ++ [v]) rs := by
  show (match g.getVertex v with
    | none => Except.error PyErr.attrError
    | some ns => dfsNbrs (fun w v2 r2 => dfsCycle g fuel w v2 r2) ns (vis ++ [v]) rs) = _
  rw [hgv]

theorem dfsNbrs_total (g : Graph) (hwf : g.WF) :
    ∀ (fuel : Nat) (ns vis : List VId) (rs : List Bool),
      (∀ n ∈ ns, n ∈ g.ids) → (rs ≠ [] ∨ ns ≠ []) →
      (g.ids.toFinset \ vis.toFinset).card ≤ fuel →
      ∃ st, dfsNbrs (fun w v2 r2 => dfsCycle g fuel w v2 r2) ns vis rs = Except.ok st ∧
        (∀ x ∈ vis, x ∈ st.2.1) ∧ st.2.2 ≠ [] := by
  intro fuel
  induction fuel with
  | zero =>
    intro ns
    induction ns with
    | nil =>
      intro vis rs _ hdisj _
      have hrs : rs ≠ [] := by
        rcases hdisj with h | h
        · exact h
        · exact absurd rfl h
      obtain ⟨b, hb⟩ := getLast?_some_of_ne_nil hrs
      exact ⟨(some b, vis, rs), dfsNbrs_nil_eq _ vis rs b hb, fun x hx => hx, hrs⟩
    | cons n rest ihns =>
      intro vis rs hids _ hb
      by_cases hn : n ∈ vis
      · exact ⟨(none, vis, rs ++ [true]), dfsNbrs_cons_seen _ n rest vis rs hn,
          fun x hx => hx, by simp⟩
      · exfalso
        have hmem : n ∈ g.ids.toFinset \ vis.toFinset := by
          rw [Finset.mem_sdiff, List.mem_toFinset, List.mem_toFinset]
          exact ⟨hids n (List.mem_cons_self _ _), hn⟩
        have := Finset.card_pos.mpr ⟨n, hmem⟩
        omega
  | succ fuel ihQ =>
    have P : ∀ (v : VId) (vis : List VId) (rs : List Bool), v ∈ g.ids → rs ≠ [] →
        (g.ids.toFinset \ (insert v vis.toFinset)).card < fuel + 1 →
        ∃ st, dfsCycle g (fuel + 1) v vis rs = Except.ok st ∧
          (∀ x, (x ∈ vis ∨ x = v) → x ∈ st.2.1) ∧ st.2.2 ≠ [] := by
      intro v vis rs hv hrs hb
      have hsome : (g.getVertex v).isSome = true := (getVertex_isSome_iff g v).mpr hv
      cases hgv : g.getVertex v with
      | none => rw [hgv] at hsome; simp at hsome
      | some nsv =>
        rw [dfsCycle_step g fuel v vis rs nsv hgv]
        have hnsv_ids : ∀ n ∈ nsv, n ∈ g.ids := by
          intro n hn
          apply neighborsD_subset_ids hwf hv
          unfold Graph.neighborsD
          rw [hgv]
          simpa using hn
        have happF : (vis ++ [v]).toFinset = insert v vis.toFinset := by
          ext x
          simp [or_comm]
        obtain ⟨st, heq, hsup, hrs2⟩ := ihQ nsv (vis ++ [v]) rs hnsv_ids (Or.inl hrs)
          (by rw [happF]; omega)
        refine ⟨st, heq, ?_, hrs2⟩
        intro x hx
        apply hsup
        rcases hx with hx | rfl
        · exact List.mem_append.mpr (Or.inl hx)
        · exact List.mem_append.mpr (Or.inr (by simp))
    intro ns
    induction ns with
    | nil =>
      intro vis rs _ hdisj _
      have hrs : rs ≠ [] := by
        rcases hdisj with h | h
        · exact h
        · exact absurd rfl h
      obtain ⟨b, hb⟩ := getLast?_some_of_ne_nil hrs
      exact ⟨(some b, vis, rs), dfsNbrs_nil_eq _ vis rs b hb, fun x hx => hx, hrs⟩
    | cons n rest ihns =>
      intro vis rs hids _ hb
      by_cases hn : n ∈ vis
      · exact ⟨(none, vis, rs ++ [true]), dfsNbrs_cons_seen _ n rest vis rs hn,
          fun x hx => hx, by simp⟩
      · have hn_ids : n ∈ g.ids := hids n (List.mem_cons_self _ _)
        have hmem : n ∈ g.ids.toFinset \ vis.toFinset := by
          rw [Finset.mem_sdiff, List.mem_toFinset, List.mem_toFinset]
          exact ⟨hn_ids, hn⟩
        have hbnd : (g.ids.toFinset \ insert n vis.toFinset).card < fuel + 1 := by
          rw [Finset.sdiff_insert, Finset.card_erase_of_mem hmem]
          have hpos := Finset.card_pos.mpr ⟨n, hmem⟩
          omega
        obtain ⟨st1, heq1, hsup1, hrs1⟩ := P n vis (rs ++ [false]) hn_ids (by simp) hbnd
        have hvis_sub : vis.toFinset ⊆ st1.2.1.toFinset := by
          intro x hx
          rw [List.mem_toFinset] at hx ⊢
          exact hsup1 x (Or.inl hx)
        obtain ⟨st2, heq2, hsup2, hrs2⟩ := ihns st1.2.1 st1.2.2
          (fun m hm => hids m (List.mem_cons_of_mem _ hm)) (Or.inl hrs1)
          (by
            have hmono : g.ids.toFinset \ st1.2.1.toFinset ⊆
                g.ids.toFinset \ vis.toFinset :=
              Finset.sdiff_subset_sdiff (le_refl _) hvis_sub
            have := Finset.card_le_card hmono
            omega)
        refine ⟨st2, ?_, ?_, hrs2⟩
        · rw [dfsNbrs_cons_fresh _ n rest vis rs st1 hn heq1]
          exact heq2
        · intro x hx
          exact hsup2 x (hsup1 x (Or.inl hx))

theorem containsCycle_total (g : Graph) (hwf : g.WF) (s : VId) (rest : List VId)
    (hids : g.ids = s :: rest) (hnb : g.neighborsD s ≠ []) :
    ∃ r, g.containsCycle = Except.ok r := by
  have hs_ids : s ∈ g.ids := by rw [hids]; simp
  have hsome : (g.getVertex s).isSome = true := (getVertex_isSome_iff g s).mpr hs_ids
  cases hgv : g.getVertex s with
  | none => rw [hgv] at hsome; simp at hsome
  | some ns0 =>
    have hns0 : g.neighborsD s = ns0 := by
      unfold Graph.neighborsD
      rw [hgv]
      rfl
    have hne : ns0 ≠ [] := by rw [← hns0]; exact hnb
    have hns0_ids : ∀ n ∈ ns0, n ∈ g.ids := by
      intro n hn
      apply neighborsD_subset_ids hwf hs_ids
      rw [hns0]
      exact hn
    have hbnd : (g.ids.toFinset \ ([s] ++ [s] : List VId).toFinset).card ≤
        g.vertexDict.length + 1 := by
      have h1 : (g.ids.toFinset \ ([s] ++ [s] : List VId).toFinset).card ≤
          g.ids.toFinset.card := Finset.card_le_card Finset.sdiff_subset
      have h2 : g.ids.toFinset.card ≤ g.ids.length := List.toFinset_card_le _
      have h3 : g.ids.length = g.vertexDict.length := List.length_map _ _
      omega
    obtain ⟨st, heq, -, -⟩ := dfsNbrs_total g hwf (g.vertexDict.length + 1) ns0
      ([s] ++ [s]) [] hns0_ids (Or.inr hne) hbnd
    have step1 : dfsCycle g (g.vertexDict.length + 2) s [s] [] =
        dfsNbrs (fun w v2 r2 => dfsCycle g (g.vertexDict.length + 1) w v2 r2) ns0
          ([s] ++ [s]) [] :=
      dfsCycle_step g (g.vertexDict.length + 1) s [s] [] ns0 hgv
    refine ⟨st.1, ?_⟩
    unfold Graph.containsCycle
    rw [hids]
    show (match dfsCycle g (g.vertexDict.length + 2) s [s] [] with
      | Except.error e => Except.error e
      | Except.ok st => Except.ok st.1) = Except.ok st.1
    rw [step1, heq]

/-- Claim C3 (amended): contains_cycle, is_bipartite, get_connected and
find_vertices_n_away are total only on restricted domains.  On a
well-formed graph: is_bipartite returns a value from every selectable
start of a non-empty graph, get_connected and find_vertices_n_away
return values for present start ids, and contains_cycle returns a value
when the first-inserted vertex has at least one neighbor.  Outside these
domains they raise: contains_cycle and is_bipartite raise IndexError on
the empty graph (contains_cycle also raises when the first vertex has no
neighbors, see the counterexample), and get_connected raises
AttributeError on an absent start id. -/
theorem C3_theorem :
    (∀ (g : Graph) (s : VId), g.WF → s ∈ g.ids →
      ∃ b, g.isBipartiteFrom s = Except.ok b) ∧
    (∀ (g : Graph) (s : VId), g.WF → g.containsId s = true →
      ∃ out, g.getConnected s = Except.ok out) ∧
    (∀ (g : Graph) (s : VId) (d : Nat), g.WF → g.containsId s = true →
      ∃ res, g.findVerticesNAway s d = Except.ok res) ∧
    (∀ (g : Graph) (s : VId) (rest : List VId), g.WF → g.ids = s :: rest →
      g.neighborsD s ≠ [] → ∃ r, g.containsCycle = Except.ok r) ∧
    (∀ g : Graph, g.ids = [] →
      g.containsCycle = Except.error PyErr.indexError ∧
      g.isBipartite = Except.error PyErr.indexError) ∧
    (∀ (g : Graph) (s : VId), g.containsId s = false →
      g.getConnected s = Except.error PyErr.attrError) := by
  refine ⟨?_, ?_, ?_, ?_, ?_, ?_⟩
  · intro g s hwf hs
    exact isBipartiteFrom_total g hwf s hs
  · intro g s hwf hs
    exact getConnected_present g hwf s hs
  · intro g s d hwf hs
    exact findVerticesNAway_present g hwf s d hs
  · intro g s rest hwf hids hnb
    exact containsCycle_total g hwf s rest hids hnb
  · intro g hids
    exact ⟨containsCycle_empty g hids, isBipartite_empty g hids⟩
  · intro g s hs
    exact getConnected_absent g s hs

/-- Witness for C3 at concrete graphs: totality on the restricted
domains and the error cases, each instantiated. -/
theorem C3_witness :
    (∃ b, bipTreeGraph.isBipartiteFrom 0 = Except.ok b) ∧
    (∃ out, bipTreeGraph.getConnected 0 = Except.ok out) ∧
    (∃ res, fspCexGraph.findVerticesNAway 0 5 = Except.ok res) ∧
    (∃ r, fspCexGraph.containsCycle = Except.ok r) ∧
    ((Graph.empty true).containsCycle = Except.error PyErr.indexError ∧
      (Graph.empty true).isBipartite = Except.error PyErr.indexError) ∧
    (Graph.empty false).getConnected 3 = Except.error PyErr.attrError :=
  ⟨C3_theorem.1 bipTreeGraph 0 (by decide) (by decide),
   C3_theorem.2.1 bipTreeGraph 0 (by decide) (by decide),
   C3_theorem.2.2.1 fspCexGraph 0 5 (by decide) (by decide),
   C3_theorem.2.2.2.1 fspCexGraph 0 [1, 2, 3, 4] (by decide) (by decide) (by decide),
   C3_theorem.2.2.2.2.1 (Graph.empty true) rfl,
   C3_theorem.2.2.2.2.2 (Graph.empty false) 3 rfl⟩

/-! ### find_connected_components: scan lemmas -/

theorem fccScan_cons_in_comp (n : VId) (ns verts queue comp : List VId)
    (h : n ∈ comp) :
    fccScan (n :: ns) verts queue comp =
      fccScan ns (if n ∈ verts then verts.erase n else verts) queue comp := by
  simp only [fccScan]
  rw [if_pos h]

theorem fccScan_cons_new (n : VId) (ns verts queue comp : List VId)
    (h : ¬ n ∈ comp) :
    fccScan (n :: ns) verts queue comp =
      fccScan ns (if n ∈ verts then verts.erase n else verts) (n :: queue)
        (comp ++ [n]) := by
  simp only [fccScan]
  rw [if_neg h]

theorem fccScan_comp_mem :
    ∀ (ns verts queue comp : List VId) (x : VId),
      x ∈ (fccScan ns verts queue comp).2.2 ↔ (x ∈ comp ∨ x ∈ ns) := by
  intro ns
  induction ns with
  | nil => intro verts queue comp x; simp [fccScan]
  | cons n rest ih =>
    intro verts queue comp x
    by_cases h : n ∈ comp
    · rw [fccScan_cons_in_comp n rest verts queue comp h, ih]
      constructor
      · rintro (hx | hx)
        · exact Or.inl hx
        · exact Or.inr (List.mem_cons_of_mem _ hx)
      · rintro (hx | hx)
        · exact Or.inl hx
        · rcases List.mem_cons.mp hx with rfl | hx
          · exact Or.inl h
          · exact Or.inr hx
    · rw [fccScan_cons_new n rest verts queue comp h, ih]
      simp only [List.mem_append, List.mem_singleton]
      constructor
      · rintro ((hx | hx) | hx)
        · exact Or.inl hx
        · subst hx
          exact Or.inr (List.mem_cons_self _ _)
        · exact Or.inr (List.mem_cons_of_mem _ hx)
      · rintro (hx | hx)
        · exact Or.inl (Or.inl hx)
        · rcases List.mem_cons.mp hx with rfl | hx
          · exact Or.inl (Or.inr rfl)
          · exact Or.inr hx

theorem fccScan_queue_mem :
    ∀ (ns verts queue comp : List VId) (q : VId),
      q ∈ (fccScan ns verts queue comp).2.1 ↔
        (q ∈ queue ∨ (q ∈ ns ∧ ¬ q ∈ comp)) := by
  intro ns
  induction ns with
  | nil => intro verts queue comp q; simp [fccScan]
  | cons n rest ih =>
    intro verts queue comp q
    by_cases h : n ∈ comp
    · rw [fccScan_cons_in_comp n rest verts queue comp h, ih]
      constructor
      · rintro (hq | ⟨hq1, hq2⟩)
        · exact Or.inl hq
        · exact Or.inr ⟨List.mem_cons_of_mem _ hq1, hq2⟩
      · rintro (hq | ⟨hq1, hq2⟩)
        · exact Or.inl hq
        · rcases List.mem_cons.mp hq1 with rfl | hq1
          · exact absurd h hq2
          · exact Or.inr ⟨hq1, hq2⟩
    · rw [fccScan_cons_new n rest verts queue comp h, ih]
      constructor
      · rintro (hq | ⟨hq1, hq2⟩)
        · rcases List.mem_cons.mp hq with rfl | hq
          · exact Or.inr ⟨List.mem_cons_self _ _, h⟩
          · exact Or.inl hq
        · simp only [List.mem_append, List.mem_singleton] at hq2
          push_neg at hq2
          exact Or.inr ⟨List.mem_cons_of_mem _ hq1, hq2.1⟩
      · rintro (hq | ⟨hq1, hq2⟩)
        · exact Or.inl (List.mem_cons_of_mem _ hq)
        · rcases List.mem_cons.mp hq1 with rfl | hq1
          · exact Or.inl (List.mem_cons_self _ _)
          · by_cases hqn : q = n
            · subst hqn
              exact Or.inl (List.mem_cons_self _ _)
            · refine Or.inr ⟨hq1, ?_⟩
              simp only [List.mem_append, List.mem_singleton]
              push_neg
              exact ⟨hq2, hqn⟩

theorem fccScan_verts_nodup :
    ∀ (ns verts queue comp : List VId),
      verts.Nodup → (fccScan ns verts queue comp).1.Nodup := by
  intro ns
  induction ns with
  | nil => intro verts queue comp h; exact h
  | cons n rest ih =>
    intro verts queue comp hnd
    have hnd2 : (if n ∈ verts then verts.erase n else verts).Nodup := by
      split
      · exact hnd.erase n
      · exact hnd
    by_cases h : n ∈ comp
    · rw [fccScan_cons_in_comp n rest verts queue comp h]
      exact ih _ _ _ hnd2
    · rw [fccScan_cons_new n rest verts queue comp h]
      exact ih _ _ _ hnd2

theorem fccScan_verts_mem :
    ∀ (ns verts queue comp : List VId),
      verts.Nodup →
      ∀ x, x ∈ (fccScan ns verts queue comp).1 ↔ (x ∈ verts ∧ ¬ x ∈ ns) := by
  intro ns
  induction ns with
  | nil => intro verts queue comp _ x; simp [fccScan]
  | cons n rest ih =>
    intro verts queue comp hnd x
    have hnd2 : (if n ∈ verts then verts.erase n else verts).Nodup := by
      split
      · exact hnd.erase n
      · exact hnd
    have hmem2 : ∀ y, y ∈ (if n ∈ verts then verts.erase n else verts) ↔
        (y ∈ verts ∧ y ≠ n) := by
      intro y
      split
      · next hnv =>
        rw [List.Nodup.mem_erase_iff hnd]
        tauto
      · next hnv =>
        constructor
        · intro hy
          refine ⟨hy, ?_⟩
          rintro rfl
          exact hnv hy
        · rintro ⟨hy, -⟩
          exact hy
    have hrec : ∀ z, z ∈ (fccScan rest (if n ∈ verts then verts.erase n else verts)
        (if n ∈ comp then queue else n :: queue)
        (if n ∈ comp then comp else comp ++ [n])).1 ↔
        (z ∈ (if n ∈ verts then verts.erase n else verts) ∧ ¬ z ∈ rest) := by
      intro z
      by_cases h : n ∈ comp
      · simp only [if_pos h]
        exact ih _ queue comp hnd2 z
      · simp only [if_neg h]
        exact ih _ (n :: queue) (comp ++ [n]) hnd2 z
    by_cases h : n ∈ comp
    · rw [fccScan_cons_in_comp n rest verts queue comp h]
      rw [ih _ _ _ hnd2 x, hmem2 x]
      simp only [List.mem_cons]
      push_neg
      tauto
    · rw [fccScan_cons_new n rest verts queue comp h]
      rw [ih _ _ _ hnd2 x, hmem2 x]
      simp only [List.mem_cons]
      push_neg
      tauto

theorem fccScan_comp_nodup :
    ∀ (ns verts queue comp : List VId),
      comp.Nodup → (fccScan ns verts queue comp).2.2.Nodup := by
  intro ns
  induction ns with
  | nil => intro verts queue comp h; exact h
  | cons n rest ih =>
    intro verts queue comp hnd
    by_cases h : n ∈ comp
    · rw [fccScan_cons_in_comp n rest verts queue comp h]
      exact ih _ _ _ hnd
    · rw [fccScan_cons_new n rest verts queue comp h]
      apply ih
      rw [List.nodup_append]
      exact ⟨hnd, by simp, by
        intro x hx
        simp only [List.mem_singleton]
        rintro rfl
        exact h hx⟩

theorem fccScan_measure (g : Graph) :
    ∀ (ns verts queue comp : List VId),
      (∀ n ∈ ns, n ∈ g.ids) →
      (fccScan ns verts queue comp).2.1.length +
        (g.ids.toFinset \ (fccScan ns verts queue comp).2.2.toFinset).card =
      queue.length + (g.ids.toFinset \ comp.toFinset).card := by
  intro ns
  induction ns with
  | nil => intro verts queue comp _; rfl
  | cons n rest ih =>
    intro verts queue comp hns
    by_cases h : n ∈ comp
    · rw [fccScan_cons_in_comp n rest verts queue comp h]
      exact ih _ _ _ (fun m hm => hns m (List.mem_cons_of_mem _ hm))
    · rw [fccScan_cons_new n rest verts queue comp h]
      rw [ih _ _ _ (fun m hm => hns m (List.mem_cons_of_mem _ hm))]
      have hn_ids : n ∈ g.ids.toFinset := by
        rw [List.mem_toFinset]
        exact hns n (List.mem_cons_self _ _)
      have hn_not : n ∉ comp.toFinset := by
        rw [List.mem_toFinset]
        exact h
      have hkeys : (comp ++ [n]).toFinset = insert n comp.toFinset := by
        ext x
        simp [or_comm]
      rw [hkeys]
      have hmem_sdiff : n ∈ g.ids.toFinset \ comp.toFinset :=
        Finset.mem_sdiff.mpr ⟨hn_ids, hn_not⟩
      rw [Finset.sdiff_insert, Finset.card_erase_of_mem hmem_sdiff]
      have hpos : 0 < (g.ids.toFinset \ comp.toFinset).card :=
        Finset.card_pos.mpr ⟨n, hmem_sdiff⟩
      simp only [List.length_cons]
      omega

/-! ### find_connected_components: inner traversal, outer loop, claim C4 -/

theorem fccInner_cons_some (g : Graph) (fuel : Nat) (verts comp : List VId)
    (cur : VId) (rest : List VId) (ns : List VId)
    (hgv : g.getVertex cur = some ns) :
    fccInner g (fuel + 1) verts (cur :: rest) comp =
      fccInner g fuel (fccScan ns verts rest comp).1
        (fccScan ns verts rest comp).2.1 (fccScan ns verts rest comp).2.2 := by
  show (match g.getVertex cur with
    | none => Except.error PyErr.attrError
    | some ns =>
      fccInner g fuel (fccScan ns verts rest comp).1
        (fccScan ns verts rest comp).2.1 (fccScan ns verts rest comp).2.2) = _
  rw [hgv]

theorem fccInner_spec (g : Graph) (hwf : g.WF) (r : VId) :
    ∀ (fuel : Nat) (verts queue comp : List VId),
      (∀ q ∈ queue, q ∈ comp) →
      (∀ x ∈ comp, x ∈ g.ids) →
      comp.Nodup →
      verts.Nodup →
      (∀ x ∈ comp, ¬ x ∈ verts) →
      (∀ x ∈ comp, x ∉ queue → ∀ y, g.hasEdge x y = true → y ∈ comp) →
      (∀ x ∈ comp, g.Reach r x) →
      queue.length + (g.ids.toFinset \ comp.toFinset).card < fuel →
      ∃ verts2 comp2, fccInner g fuel verts queue comp = Except.ok (verts2, comp2) ∧
        (∀ x ∈ comp, x ∈ comp2) ∧
        comp2.Nodup ∧
        (∀ x ∈ comp2, x ∈ g.ids) ∧
        (∀ x ∈ comp2, g.Reach r x) ∧
        (∀ x ∈ comp2, ∀ y, g.hasEdge x y = true → y ∈ comp2) ∧
        (∀ x ∈ verts2, x ∈ verts) ∧
        verts2.Nodup ∧
        (∀ x ∈ comp2, ¬ x ∈ verts2) ∧
        (∀ x ∈ verts, x ∉ verts2 → x ∈ comp2) := by
  intro fuel
  induction fuel with
  | zero => intro verts queue comp _ _ _ _ _ _ _ hm; omega
  | succ fuel ih =>
    intro verts queue comp H1 H2 H3 H4 H5 H6 H7 hm
    cases queue with
    | nil =>
      refine ⟨verts, comp, rfl, fun x hx => hx, H3, H2, H7, ?_, fun x hx => hx, H4, H5,
        fun x hx hx2 => absurd hx hx2⟩
      intro x hx y hy
      exact H6 x hx (by simp) y hy
    | cons cur rest =>
      have hcurc : cur ∈ comp := H1 cur (by simp)
      have hcurids : cur ∈ g.ids := H2 cur hcurc
      have hsome : (g.getVertex cur).isSome = true := (getVertex_isSome_iff g cur).mpr hcurids
      cases hgv : g.getVertex cur with
      | none => rw [hgv] at hsome; simp at hsome
      | some ns =>
        rw [fccInner_cons_some g fuel verts comp cur rest ns hgv]
        have hns_ids : ∀ n ∈ ns, n ∈ g.ids := by
          intro n hn
          apply neighborsD_subset_ids hwf hcurids
          unfold Graph.neighborsD
          rw [hgv]
          simpa using hn
        have hedge_ns : ∀ y, g.hasEdge cur y = true ↔ y ∈ ns := by
          intro y
          rw [hasEdge_iff_mem_neighborsD]
          unfold Graph.neighborsD
          rw [hgv]
          exact Iff.rfl
        have hcm := fccScan_comp_mem ns verts rest comp
        have hqm := fccScan_queue_mem ns verts rest comp
        have hvm := fccScan_verts_mem ns verts rest comp H4
        have hvnd := fccScan_verts_nodup ns verts rest comp H4
        have hcnd := fccScan_comp_nodup ns verts rest comp H3
        have hms := fccScan_measure g ns verts rest comp hns_ids
        obtain ⟨verts2, comp2, heq, C1, C2, C3, C4, C5, C6, C7, C8, C9⟩ :=
          ih (fccScan ns verts rest comp).1 (fccScan ns verts rest comp).2.1
            (fccScan ns verts rest comp).2.2
            (by
              intro q hq
              rw [hcm q]
              rcases (hqm q).mp hq with hq2 | ⟨hq2, -⟩
              · exact Or.inl (H1 q (List.mem_cons_of_mem _ hq2))
              · exact Or.inr hq2)
            (by
              intro x hx
              rcases (hcm x).mp hx with hx2 | hx2
              · exact H2 x hx2
              · exact hns_ids x hx2)
            hcnd
            hvnd
            (by
              intro x hx hxv
              have hx3 := ((hvm x).mp hxv).2
              rcases (hcm x).mp hx with hx2 | hx2
              · exact H5 x hx2 ((hvm x).mp hxv).1
              · exact hx3 hx2)
            (by
              intro x hx hxq y hy
              rw [hcm y]
              by_cases hxcur : x = cur
              · subst hxcur
                exact Or.inr ((hedge_ns y).mp hy)
              · rcases (hcm x).mp hx with hx2 | hx2
                · have hxrest : x ∉ rest := by
                    intro hxr
                    exact hxq ((hqm x).mpr (Or.inl hxr))
                  have hxqueue : x ∉ cur :: rest := by
                    intro hxcr
                    rcases List.mem_cons.mp hxcr with h | h
                    · exact hxcur h
                    · exact hxrest h
                  exact Or.inl (H6 x hx2 hxqueue y hy)
                · by_cases hxc : x ∈ comp
                  · have hxrest : x ∉ rest := by
                      intro hxr
                      exact hxq ((hqm x).mpr (Or.inl hxr))
                    have hxqueue : x ∉ cur :: rest := by
                      intro hxcr
                      rcases List.mem_cons.mp hxcr with h | h
                      · exact hxcur h
                      · exact hxrest h
                    exact Or.inl (H6 x hxc hxqueue y hy)
                  · exact absurd ((hqm x).mpr (Or.inr ⟨hx2, hxc⟩)) hxq)
            (by
              intro x hx
              rcases (hcm x).mp hx with hx2 | hx2
              · exact H7 x hx2
              · exact Relation.ReflTransGen.tail (H7 cur hcurc) ((hedge_ns x).mpr hx2))
            (by
              rw [hms]
              simp only [List.length_cons] at hm
              omega)
        refine ⟨verts2, comp2, heq, ?_, C2, C3, C4, C5, ?_, C7, C8, ?_⟩
        · intro x hx
          exact C1 x ((hcm x).mpr (Or.inl hx))
        · intro x hx
          exact ((hvm x).mp (C6 x hx)).1
        · intro x hxv hxv2
          by_cases hxmid : x ∈ (fccScan ns verts rest comp).1
          · exact C9 x hxmid hxv2
          · have : ¬ (x ∈ verts ∧ ¬ x ∈ ns) := fun hc => hxmid ((hvm x).mpr hc)
            push_neg at this
            exact C1 x ((hcm x).mpr (Or.inr (this hxv)))

theorem reach_symm {g : Graph} (hsym : g.Sym) {a b : VId} (h : g.Reach a b) :
    g.Reach b a := by
  induction h with
  | refl => exact Relation.ReflTransGen.refl
  | tail hr hstep ih => exact Relation.ReflTransGen.head (hsym _ _ hstep) ih

theorem fccOuter_cons (g : Graph) (fuel : Nat) (r : VId) (verts' : List VId)
    (acc : List (List VId)) :
    fccOuter g (fuel + 1) (r :: verts') acc =
      match fccInner g (g.vertexDict.length + 2) verts' [r] [r] with
      | Except.error e => Except.error e
      | Except.ok st => fccOuter g fuel st.1 (acc ++ [st.2]) := rfl

theorem fccOuter_spec (g : Graph) (hwf : g.WF) :
    ∀ (fuel : Nat) (verts : List VId) (acc : List (List VId)),
      (∀ x ∈ verts, x ∈ g.ids) →
      verts.Nodup →
      (∀ x, x ∈ g.ids ↔ (x ∈ verts ∨ x ∈ acc.flatten)) →
      (∀ x ∈ acc.flatten, ¬ x ∈ verts) →
      (∀ C ∈ acc, ∀ x ∈ C, ∀ y, g.hasEdge x y = true → y ∈ C) →
      (g.Sym → acc.flatten.Nodup) →
      verts.length < fuel →
      ∃ l, fccOuter g fuel verts acc = Except.ok l ∧
        (∀ x, x ∈ l.flatten ↔ x ∈ g.ids) ∧
        (g.Sym → l.flatten.Nodup) := by
  intro fuel
  induction fuel with
  | zero => intro verts acc _ _ _ _ _ _ hm; omega
  | succ fuel ih =>
    intro verts acc G1 G2 G3 G4 G5 G6 hm
    cases verts with
    | nil =>
      refine ⟨acc, rfl, ?_, G6⟩
      intro x
      rw [G3 x]
      simp
    | cons r verts' =>
      have hr_ids : r ∈ g.ids := G1 r (by simp)
      have hr_notv : r ∉ verts' := (List.nodup_cons.mp G2).1
      have hbnd : ([r] : List VId).length +
          (g.ids.toFinset \ ([r] : List VId).toFinset).card <
          g.vertexDict.length + 2 := by
        have h1 : (g.ids.toFinset \ ([r] : List VId).toFinset).card ≤
            g.ids.toFinset.card := Finset.card_le_card Finset.sdiff_subset
        have h2 : g.ids.toFinset.card ≤ g.ids.length := List.toFinset_card_le _
        have h3 : g.ids.length = g.vertexDict.length := List.length_map _ _
        simp only [List.length_singleton]
        omega
      obtain ⟨verts2, comp2, heq, C1, C2, C3, C4, C5, C6, C7, C8, C9⟩ :=
        fccInner_spec g hwf r (g.vertexDict.length + 2) verts' [r] [r]
          (fun q hq => hq)
          (by intro x hx; simp at hx; rw [hx]; exact hr_ids)
          (by simp)
          (List.nodup_cons.mp G2).2
          (by intro x hx; simp at hx; rw [hx]; exact hr_notv)
          (by intro x hx hxq; simp at hx; rw [hx] at hxq; simp at hxq)
          (by intro x hx; simp at hx; rw [hx]; exact Relation.ReflTransGen.refl)
          hbnd
      have hrc : r ∈ comp2 := C1 r (by simp)
      have hv2len : verts2.length ≤ verts'.length := by
        have hsub : verts2.toFinset ⊆ verts'.toFinset := by
          intro x hx
          rw [List.mem_toFinset] at hx ⊢
          exact C6 x hx
        have hc1 := Finset.card_le_card hsub
        rw [List.toFinset_card_of_nodup C7, List.toFinset_card_of_nodup
          (List.nodup_cons.mp G2).2] at hc1
        exact hc1
      have hdisj_old : g.Sym → ∀ x ∈ acc.flatten, ¬ x ∈ comp2 := by
        intro hsym x hxflat hxcomp
        obtain ⟨C, hC, hxC⟩ := List.mem_flatten.mp hxflat
        have hxr : g.Reach r x := C4 x hxcomp
        have hrx : g.Reach x r := reach_symm hsym hxr
        have hrC : r ∈ C :=
          reach_closed hxC (fun a b ha he => G5 C hC a ha b he) hrx
        have hrflat : r ∈ acc.flatten := List.mem_flatten.mpr ⟨C, hC, hrC⟩
        exact G4 r hrflat (by simp)
      have hflat' : (acc ++ [comp2]).flatten = acc.flatten ++ comp2 := by
        simp
      obtain ⟨l, hl, hl2, hl3⟩ := ih verts2 (acc ++ [comp2])
        (fun x hx => G1 x (List.mem_cons_of_mem _ (C6 x hx)))
        C7
        (by
          intro x
          rw [G3 x, hflat']
          simp only [List.mem_append, List.mem_cons]
          constructor
          · rintro ((rfl | hx) | hx)
            · exact Or.inr (Or.inr hrc)
            · by_cases hxv2 : x ∈ verts2
              · exact Or.inl hxv2
              · exact Or.inr (Or.inr (C9 x hx hxv2))
            · exact Or.inr (Or.inl hx)
          · rintro (hx | hx | hx)
            · exact Or.inl (Or.inr (C6 x hx))
            · exact Or.inr hx
            · rcases (G3 x).mp (C3 x hx) with h | h
              · exact Or.inl (List.mem_cons.mp h)
              · exact Or.inr h)
        (by
          intro x hx
          rw [hflat'] at hx
          intro hxv2
          rcases List.mem_append.mp hx with hx2 | hx2
          · exact G4 x hx2 (List.mem_cons_of_mem _ (C6 x hxv2))
          · exact C8 x hx2 hxv2)
        (by
          intro C hC
          rcases List.mem_append.mp hC with hC2 | hC2
          · exact G5 C hC2
          · have : C = comp2 := by simpa using hC2
            rw [this]
            exact C5)
        (by
          intro hsym
          rw [hflat']
          rw [List.nodup_append]
          exact ⟨G6 hsym, C2, fun a ha hb => hdisj_old hsym a ha hb⟩)
        (by
          simp only [List.length_cons] at hm
          omega)
      refine ⟨l, ?_, hl2, hl3⟩
      rw [fccOuter_cons, heq]
      exact hl

/-- Claim C4 (amended): for every well-formed graph,
find_connected_components succeeds and the union of the returned
components equals the set of all vertex ids; when the adjacency is
symmetric (as on undirected graphs) the components are in addition
pairwise disjoint with every id appearing exactly once across the
result.  The original claim fails on directed graphs, where an id can
appear in two components (see the counterexample). -/
theorem C4_theorem (g : Graph) (hwf : g.WF) :
    ∃ l, g.findConnectedComponents = Except.ok l ∧
      (∀ x, x ∈ l.flatten ↔ x ∈ g.ids) ∧
      (g.Sym → l.flatten.Nodup) := by
  have hlen : g.ids.length = g.vertexDict.length := List.length_map _ _
  obtain ⟨l, hl, hl2, hl3⟩ := fccOuter_spec g hwf (g.vertexDict.length + 1) g.ids []
    (fun _ hx => hx)
    hwf.1
    (by intro x; simp)
    (by intro x hx; simp at hx)
    (by intro C hC; simp at hC)
    (by intro _; simp)
    (by omega)
  exact ⟨l, hl, hl2, hl3⟩

/-- Witness for C4: the undirected graph with edges 0-1 and 2-3 is
well-formed, and find_connected_components on it satisfies the amended
claim. -/
theorem C4_witness :
    (buildUndirected [(0, 1), (2, 3)]).WF ∧
    ∃ l, (buildUndirected [(0, 1), (2, 3)]).findConnectedComponents = Except.ok l ∧
      (∀ x, x ∈ l.flatten ↔ x ∈ (buildUndirected [(0, 1), (2, 3)]).ids) ∧
      ((buildUndirected [(0, 1), (2, 3)]).Sym → l.flatten.Nodup) :=
  ⟨by decide, C4_theorem (buildUndirected [(0, 1), (2, 3)]) (by decide)⟩
